import Mathlib

/-!
# Atmosphere to-do widget: a verification development for `src/App.jsx`

The component keeps an ordered list of task records in React state, mirrors it
to `localStorage` as JSON, and derives completion statistics from it.

Embedding conventions:

* a JavaScript string is its sequence of UTF-16 code units (`JsString`);
* the values produced by the environment (`crypto.randomUUID()`,
  `new Date().toISOString()`) are passed to the operations as arguments;
* React state is passed explicitly (`AppState`), each handler is a function
  from state to state;
* an exception thrown by the code is an `Except.error` result.
-/

namespace AtmosphereTodo

/-! ## Strings -/

/-- One UTF-16 code unit. -/
abbrev CodeUnit := Fin 65536

/-- A JavaScript string value: a finite sequence of UTF-16 code units. -/
abbrev JsString := List CodeUnit

/-- UTF-16 encoding of a text literal, used to write concrete inputs. -/
def utf16 (s : String) : JsString :=
  s.toList.flatMap fun c =>
    if c.toNat < 65536 then [Fin.ofNat c.toNat]
    else [Fin.ofNat (0xD800 + (c.toNat - 65536) / 1024),
          Fin.ofNat (0xDC00 + (c.toNat - 65536) % 1024)]

/-- ECMAScript `WhiteSpace`: TAB, VT, FF, ZWNBSP and the code points of general
category Space_Separator. -/
def isWhiteSpace (c : CodeUnit) : Bool :=
  c.val = 0x0009 || c.val = 0x000B || c.val = 0x000C || c.val = 0xFEFF ||
  c.val = 0x0020 || c.val = 0x00A0 || c.val = 0x1680 ||
  (0x2000 ≤ c.val && c.val ≤ 0x200A) ||
  c.val = 0x202F || c.val = 0x205F || c.val = 0x3000

/-- ECMAScript `LineTerminator`: LF, CR, LS, PS. -/
def isLineTerminator (c : CodeUnit) : Bool :=
  c.val = 0x000A || c.val = 0x000D || c.val = 0x2028 || c.val = 0x2029

/-- The code units that `String.prototype.trim` strips. -/
def isTrimmable (c : CodeUnit) : Bool :=
  isWhiteSpace c || isLineTerminator c

/-- Strips leading white space and line terminators. -/
def trimStart (s : JsString) : JsString :=
  s.dropWhile isTrimmable

/-- Strips trailing white space and line terminators. -/
def trimEnd (s : JsString) : JsString :=
  (s.reverse.dropWhile isTrimmable).reverse

/-- The method `String.prototype.trim`. -/
def trim (s : JsString) : JsString :=
  trimEnd (trimStart s)

/-- A string that is empty or made of white space and line terminators only. -/
def isBlank (s : JsString) : Bool :=
  s.all isTrimmable

/-! ## Data model and handlers -/

/-- A task record `{ id, text, completed, createdAt }`. -/
structure Todo where
  id : JsString
  text : JsString
  completed : Bool
  createdAt : JsString
deriving DecidableEq, Repr

/-- The React state of `App` that the handlers read and write. -/
structure AppState where
  todos : List Todo
  input : JsString
deriving DecidableEq, Repr

/-- State of a fresh session with nothing stored: no tasks, empty draft. -/
def AppState.initial : AppState :=
  { todos := [], input := [] }

/-- The handler `addTodo`; `uuid` is the value of `crypto.randomUUID()` and `now`
the value of `new Date().toISOString()` at the time of the call. -/
def addTodo (uuid now : JsString) (st : AppState) : AppState :=
  if (trim st.input).isEmpty then st
  else
    let newTodo : Todo :=
      { id := uuid, text := trim st.input, completed := false, createdAt := now }
    { todos := newTodo :: st.todos, input := [] }

/-- The handler `toggleTodo`. -/
def toggleTodo (id : JsString) (st : AppState) : AppState :=
  { st with todos := st.todos.map fun todo =>
      if todo.id = id then { todo with completed := !todo.completed } else todo }

/-- The handler `deleteTodo`. -/
def deleteTodo (id : JsString) (st : AppState) : AppState :=
  { st with todos := st.todos.filter fun todo => todo.id ≠ id }

/-- The `onChange` handler of the text box: `setInput(e.target.value)`. -/
def setInput (value : JsString) (st : AppState) : AppState :=
  { st with input := value }

/-- The user and environment events that change the state. -/
inductive Action where
  | type (value : JsString)
  | add (uuid now : JsString)
  | toggle (id : JsString)
  | delete (id : JsString)
deriving DecidableEq, Repr

/-- One event handled to completion. -/
def step (st : AppState) : Action → AppState
  | .type value => setInput value st
  | .add uuid now => addTodo uuid now st
  | .toggle id => toggleTodo id st
  | .delete id => deleteTodo id st

/-- A sequence of events handled one after the other. -/
def run (st : AppState) (acts : List Action) : AppState :=
  acts.foldl step st

/-- The ids of a task list, in list order. -/
def ids (l : List Todo) : List JsString :=
  l.map Todo.id

/-- Every `add` event of the sequence carries an id that is not in the list at
the time it is handled. -/
def freshIds (st : AppState) : List Action → Bool
  | [] => true
  | .add uuid now :: rest =>
      !(ids st.todos).contains uuid && freshIds (step st (.add uuid now)) rest
  | a :: rest => freshIds (step st a) rest

/-- The text invariant: every text is non-empty, not blank, and already trimmed. -/
def TextsOk (l : List Todo) : Prop :=
  ∀ t ∈ l, t.text ≠ [] ∧ isBlank t.text = false ∧ trim t.text = t.text

/-- The shape of a trimmed string: empty, or delimited by two code units that
`trim` does not strip. -/
inductive Trimmed : JsString → Prop
  | empty : Trimmed []
  | single (a : CodeUnit) : isTrimmable a = false → Trimmed [a]
  | delimited (a b : CodeUnit) (m : JsString) :
      isTrimmable a = false → isTrimmable b = false → Trimmed (a :: (m ++ [b]))

/-! ## Numbers

A finite Number value is modelled by the rational it denotes. Each arithmetic
operation computes the exact result and rounds it to the nearest binary64 value.
The exponent range of binary64 is not modelled: `stats` only rounds quotients in
`(2^-32, 1]` and products in `(0, 200]` (`stats_operands_in_range`), far inside the
normal range, and the integers it starts from are array lengths, which are exact. -/

/-- Nearest integer, a tie going to the even neighbour. -/
def roundTiesToEven (q : ℚ) : ℤ :=
  if q - ⌊q⌋ < 1 / 2 then ⌊q⌋
  else if 1 / 2 < q - ⌊q⌋ then ⌊q⌋ + 1
  else if ⌊q⌋ % 2 = 0 then ⌊q⌋
  else ⌊q⌋ + 1

/-- The value with a 53-bit significand nearest to `q`, ties to even: the rounding
that IEEE 754 binary64 arithmetic applies to an exact result. -/
def roundF64 (q : ℚ) : ℚ :=
  if q = 0 then 0
  else (roundTiesToEven (q / 2 ^ (Int.log 2 |q| - 52)) : ℚ) * 2 ^ (Int.log 2 |q| - 52)

/-- The operator `/` on Numbers, for a non-zero divisor. -/
def numberDivide (x y : ℚ) : ℚ :=
  roundF64 (x / y)

/-- The operator `*` on Numbers. -/
def numberMultiply (x y : ℚ) : ℚ :=
  roundF64 (x * y)

/-- The function `Math.round`: the nearest integer, a tie going towards +∞. -/
def Math.round (x : ℚ) : ℤ :=
  ⌊x + 1 / 2⌋

/-- The value of the `stats` memo. -/
structure Stats where
  total : Nat
  completed : Nat
  percentage : Int
deriving DecidableEq, Repr

/-- The `stats` memo of `App`, as a function of the task list. -/
def stats (todos : List Todo) : Stats :=
  let total := todos.length
  let completed := (todos.filter fun t => t.completed).length
  let percentage :=
    if total = 0 then 0 else Math.round (numberMultiply (numberDivide completed total) 100)
  { total := total, completed := completed, percentage := percentage }

/-! ## JSON text and `localStorage`

`JSON.parse` follows the JSON grammar (ECMA-404) on code units. The recursive descent
carries a fuel argument; `JSON.parse` supplies `2 * length + 1`, which is shown below
never to run out. -/

/-- The values `JSON.parse` can return. A Number is kept as the decimal literal it
was read from, `± mantissa × 10 ^ exponent`; an object is its list of own properties
in creation order (the place of integer-like keys in the enumeration order is not
modelled: nothing below enumerates a parsed object). -/
inductive JsValue where
  | null
  | bool (b : Bool)
  | number (negative : Bool) (mantissa : Nat) (exponent : Int)
  | string (s : JsString)
  | array (items : List JsValue)
  | object (props : List (JsString × JsValue))

/-- The exceptions of the embedded code. -/
inductive JsError where
  | syntaxError
deriving DecidableEq, Repr

/-- Outcome of a parsing function that consumes a prefix of its input. -/
inductive ParseResult (α : Type) where
  | ok (value : α) (rest : JsString)
  | syntaxError
  | outOfFuel

/-- JSON white space: TAB, LF, CR, SPACE. -/
def isJsonWhiteSpace (c : CodeUnit) : Bool :=
  c.val = 0x09 || c.val = 0x0A || c.val = 0x0D || c.val = 0x20

/-- Drops leading JSON white space. -/
def skipWhiteSpace (s : JsString) : JsString :=
  s.dropWhile isJsonWhiteSpace

/-- Value of a hexadecimal digit, either case. -/
def hexValue (c : CodeUnit) : Option Nat :=
  if 0x30 ≤ c.val ∧ c.val ≤ 0x39 then some (c.val - 0x30)
  else if 0x61 ≤ c.val ∧ c.val ≤ 0x66 then some (c.val - 0x61 + 10)
  else if 0x41 ≤ c.val ∧ c.val ≤ 0x46 then some (c.val - 0x41 + 10)
  else none

/-- The code unit denoted by the character after a backslash, `\u` apart. -/
def simpleEscape (c : CodeUnit) : Option CodeUnit :=
  if c.val = 0x22 then some 0x22
  else if c.val = 0x5C then some 0x5C
  else if c.val = 0x2F then some 0x2F
  else if c.val = 0x62 then some 0x08
  else if c.val = 0x66 then some 0x0C
  else if c.val = 0x6E then some 0x0A
  else if c.val = 0x72 then some 0x0D
  else if c.val = 0x74 then some 0x09
  else none

/-- Reads the characters of a JSON string up to and including the closing quote;
the opening quote has been consumed. -/
def parseChars : JsString → Option (JsString × JsString)
  | [] => none
  | c :: rest =>
    if c.val = 0x22 then some ([], rest)
    else if c.val = 0x5C then
      match rest with
      | [] => none
      | e :: rest1 =>
        if e.val = 0x75 then
          match rest1 with
          | h1 :: h2 :: h3 :: h4 :: rest2 =>
            match hexValue h1, hexValue h2, hexValue h3, hexValue h4 with
            | some x1, some x2, some x3, some x4 =>
              match parseChars rest2 with
              | some (str, r) =>
                some (Fin.ofNat (((x1 * 16 + x2) * 16 + x3) * 16 + x4) :: str, r)
              | none => none
            | _, _, _, _ => none
          | _ => none
        else
          match simpleEscape e with
          | some u =>
            match parseChars rest1 with
            | some (str, r) => some (u :: str, r)
            | none => none
          | none => none
    else if c.val < 0x20 then none
    else
      match parseChars rest with
      | some (str, r) => some (c :: str, r)
      | none => none

/-- A decimal digit. -/
def isDigit (c : CodeUnit) : Bool :=
  0x30 ≤ c.val && c.val ≤ 0x39

/-- Value of a run of decimal digits appended to `acc`. -/
def digitsValue (acc : Nat) (ds : JsString) : Nat :=
  ds.foldl (fun a d => 10 * a + (d.val - 0x30)) acc

/-- Reads the optional sign of an exponent; `true` for a minus sign. -/
def parseExponentSign (s : JsString) : Bool × JsString :=
  match s with
  | sg :: rest =>
    if sg.val = 0x2D then (true, rest)
    else if sg.val = 0x2B then (false, rest)
    else (false, s)
  | [] => (false, s)

/-- Reads the optional exponent part of a number. -/
def parseExponent (s : JsString) : Option (Int × JsString) :=
  match s with
  | e :: rest =>
    if e.val = 0x65 ∨ e.val = 0x45 then
      let signed := parseExponentSign rest
      let ds := signed.2.takeWhile isDigit
      if ds.isEmpty then none
      else
        let n : Int := digitsValue 0 ds
        some (if signed.1 then -n else n, signed.2.dropWhile isDigit)
    else some (0, s)
  | [] => some (0, s)

/-- Reads the optional fraction part of a number: its digits. -/
def parseFraction (s : JsString) : Option (JsString × JsString) :=
  match s with
  | p :: rest =>
    if p.val = 0x2E then
      let ds := rest.takeWhile isDigit
      if ds.isEmpty then none else some (ds, rest.dropWhile isDigit)
    else some ([], s)
  | [] => some ([], s)

/-- Reads the integer part of a number: `0`, or a non-zero digit and more digits. -/
def parseInteger (s : JsString) : Option (JsString × JsString) :=
  match s with
  | d :: rest =>
    if d.val = 0x30 then some ([d], rest)
    else if isDigit d then some (d :: rest.takeWhile isDigit, rest.dropWhile isDigit)
    else none
  | [] => none

/-- Reads the optional minus sign of a number. -/
def parseMinus (s : JsString) : Bool × JsString :=
  match s with
  | m :: rest => if m.val = 0x2D then (true, rest) else (false, s)
  | [] => (false, s)

/-- Reads a JSON number. -/
def parseNumber (s : JsString) : Option (JsValue × JsString) :=
  match parseInteger (parseMinus s).2 with
  | none => none
  | some (intDigits, s1) =>
    match parseFraction s1 with
    | none => none
    | some (fracDigits, s2) =>
      match parseExponent s2 with
      | none => none
      | some (e, s3) =>
        some (.number (parseMinus s).1 (digitsValue (digitsValue 0 intDigits) fracDigits)
          (e - fracDigits.length), s3)

/-- Defines property `key` with value `v`: an existing property of that name keeps
its place and takes the new value, a new one goes last. -/
def defineProperty (key : JsString) (v : JsValue) :
    List (JsString × JsValue) → List (JsString × JsValue)
  | [] => [(key, v)]
  | (k, w) :: props =>
    if k = key then (k, v) :: props else (k, w) :: defineProperty key v props

/-- The object built from the members of an object literal, read left to right. -/
def objectOfMembers (members : List (JsString × JsValue)) : List (JsString × JsValue) :=
  members.foldl (fun props m => defineProperty m.1 m.2 props) []

mutual

/-- Reads one JSON value at the head of the input. -/
def parseValue : Nat → JsString → ParseResult JsValue
  | 0, _ => .outOfFuel
  | fuel + 1, s =>
    match s with
    | [] => .syntaxError
    | c :: rest =>
      if c.val = 0x7B then
        match skipWhiteSpace rest with
        | [] => .syntaxError
        | d :: rest1 =>
          if d.val = 0x7D then .ok (.object []) rest1
          else
            match parseMembers fuel (d :: rest1) with
            | .ok members r => .ok (.object (objectOfMembers members)) r
            | .syntaxError => .syntaxError
            | .outOfFuel => .outOfFuel
      else if c.val = 0x5B then
        match skipWhiteSpace rest with
        | [] => .syntaxError
        | d :: rest1 =>
          if d.val = 0x5D then .ok (.array []) rest1
          else
            match parseElements fuel (d :: rest1) with
            | .ok items r => .ok (.array items) r
            | .syntaxError => .syntaxError
            | .outOfFuel => .outOfFuel
      else if c.val = 0x22 then
        match parseChars rest with
        | some (str, r) => .ok (.string str) r
        | none => .syntaxError
      else if (utf16 "true").isPrefixOf s then .ok (.bool true) (s.drop 4)
      else if (utf16 "false").isPrefixOf s then .ok (.bool false) (s.drop 5)
      else if (utf16 "null").isPrefixOf s then .ok .null (s.drop 4)
      else
        match parseNumber s with
        | some (v, r) => .ok v r
        | none => .syntaxError

/-- Reads the elements of a non-empty array up to and including the closing bracket. -/
def parseElements : Nat → JsString → ParseResult (List JsValue)
  | 0, _ => .outOfFuel
  | fuel + 1, s =>
    match parseValue fuel (skipWhiteSpace s) with
    | .ok v r =>
      match skipWhiteSpace r with
      | [] => .syntaxError
      | c :: r1 =>
        if c.val = 0x2C then
          match parseElements fuel r1 with
          | .ok vs r2 => .ok (v :: vs) r2
          | .syntaxError => .syntaxError
          | .outOfFuel => .outOfFuel
        else if c.val = 0x5D then .ok [v] r1
        else .syntaxError
    | .syntaxError => .syntaxError
    | .outOfFuel => .outOfFuel

/-- Reads the members of a non-empty object up to and including the closing brace. -/
def parseMembers : Nat → JsString → ParseResult (List (JsString × JsValue))
  | 0, _ => .outOfFuel
  | fuel + 1, s =>
    match skipWhiteSpace s with
    | [] => .syntaxError
    | q :: r0 =>
      if q.val = 0x22 then
        match parseChars r0 with
        | none => .syntaxError
        | some (key, r1) =>
          match skipWhiteSpace r1 with
          | [] => .syntaxError
          | colon :: r2 =>
            if colon.val = 0x3A then
              match parseValue fuel (skipWhiteSpace r2) with
              | .ok v r3 =>
                match skipWhiteSpace r3 with
                | [] => .syntaxError
                | c :: r4 =>
                  if c.val = 0x2C then
                    match parseMembers fuel r4 with
                    | .ok ms r5 => .ok ((key, v) :: ms) r5
                    | .syntaxError => .syntaxError
                    | .outOfFuel => .outOfFuel
                  else if c.val = 0x7D then .ok [(key, v)] r4
                  else .syntaxError
              | .syntaxError => .syntaxError
              | .outOfFuel => .outOfFuel
            else .syntaxError
      else .syntaxError

end

/-- The function `JSON.parse` on a string, without reviver: the value the text
denotes, or a `SyntaxError`. -/
def JSON.parse (text : JsString) : Except JsError JsValue :=
  match parseValue (2 * text.length + 1) (skipWhiteSpace text) with
  | .ok v rest => if (skipWhiteSpace rest).isEmpty then .ok v else .error .syntaxError
  | .syntaxError => .error .syntaxError
  | .outOfFuel => .error .syntaxError

/-- The lower-case hexadecimal digit of a value below sixteen. -/
def hexDigit (n : Nat) : CodeUnit :=
  if n < 10 then Fin.ofNat (0x30 + n) else Fin.ofNat (0x61 + (n - 10))

/-- The operation `UnicodeEscape`: `\u` and four lower-case hexadecimal digits. -/
def unicodeEscape (c : CodeUnit) : JsString :=
  [0x5C, 0x75, hexDigit (c.val / 4096), hexDigit (c.val / 256 % 16),
    hexDigit (c.val / 16 % 16), hexDigit (c.val % 16)]

/-- A leading (high) surrogate code unit. -/
def isLeadingSurrogate (c : CodeUnit) : Bool :=
  0xD800 ≤ c.val && c.val ≤ 0xDBFF

/-- A trailing (low) surrogate code unit. -/
def isTrailingSurrogate (c : CodeUnit) : Bool :=
  0xDC00 ≤ c.val && c.val ≤ 0xDFFF

/-- The two-character escapes of `QuoteJSONString`. -/
def shortEscape (c : CodeUnit) : Option CodeUnit :=
  if c.val = 0x08 then some 0x62
  else if c.val = 0x09 then some 0x74
  else if c.val = 0x0A then some 0x6E
  else if c.val = 0x0C then some 0x66
  else if c.val = 0x0D then some 0x72
  else if c.val = 0x22 then some 0x22
  else if c.val = 0x5C then some 0x5C
  else none

/-- The step of `QuoteJSONString` for a code point that is a single code unit: a
short escape, a `\u` escape for a control character or a lone surrogate, or the
code unit itself. -/
def quoteUnit (c : CodeUnit) : JsString :=
  match shortEscape c with
  | some e => [0x5C, e]
  | none =>
    if c.val < 0x20 || isLeadingSurrogate c || isTrailingSurrogate c then unicodeEscape c
    else [c]

/-- The body of `QuoteJSONString`: the string is read code point by code point; a
surrogate pair is one code point and is copied. -/
def quoteChars : JsString → JsString
  | [] => []
  | [c] => quoteUnit c
  | c :: d :: rest =>
    if isLeadingSurrogate c && isTrailingSurrogate d then c :: d :: quoteChars rest
    else quoteUnit c ++ quoteChars (d :: rest)

/-- The operation `QuoteJSONString`. -/
def quoteJSONString (s : JsString) : JsString :=
  0x22 :: (quoteChars s ++ [0x22])

/-- The operation `SerializeJSONObject` on a task record, no indentation: the own
properties in creation order `id`, `text`, `completed`, `createdAt`. -/
def serializeTodo (t : Todo) : JsString :=
  utf16 "\x7b\"id\":" ++ quoteJSONString t.id ++
    utf16 ",\"text\":" ++ quoteJSONString t.text ++
    utf16 ",\"completed\":" ++ (if t.completed then utf16 "true" else utf16 "false") ++
    utf16 ",\"createdAt\":" ++ quoteJSONString t.createdAt ++ utf16 "\x7d"

/-- The elements of an array joined by commas. -/
def joinComma : List JsString → JsString
  | [] => []
  | [x] => x
  | x :: y :: rest => x ++ 0x2C :: joinComma (y :: rest)

/-- The call `JSON.stringify(todos)` on an array of task records. -/
def JSON.stringify (todos : List Todo) : JsString :=
  0x5B :: (joinComma (todos.map serializeTodo) ++ [0x5D])

/-- The JavaScript object of a task record. -/
def Todo.toJsValue (t : Todo) : JsValue :=
  .object [(utf16 "id", .string t.id), (utf16 "text", .string t.text),
    (utf16 "completed", .bool t.completed), (utf16 "createdAt", .string t.createdAt)]

/-- The JavaScript array of a list of task records. -/
def todosToJsValue (todos : List Todo) : JsValue :=
  .array (todos.map Todo.toJsValue)

/-- Property lookup `obj[key]`. -/
def getProperty (key : JsString) : List (JsString × JsValue) → Option JsValue
  | [] => none
  | (k, v) :: props => if k = key then some v else getProperty key props

/-- Reads a JavaScript value as a task record: an object whose `id`, `text` and
`createdAt` are strings and whose `completed` is a boolean. -/
def JsValue.asTodo : JsValue → Option Todo
  | .object props =>
    match getProperty (utf16 "id") props, getProperty (utf16 "text") props,
      getProperty (utf16 "completed") props, getProperty (utf16 "createdAt") props with
    | some (.string id), some (.string text), some (.bool completed),
      some (.string createdAt) =>
      some { id := id, text := text, completed := completed, createdAt := createdAt }
    | _, _, _, _ => none
  | _ => none

/-- Reads a JavaScript value as a list of task records. -/
def JsValue.asTodos : JsValue → Option (List Todo)
  | .array items => items.mapM JsValue.asTodo
  | _ => none

/-- The content of `localStorage`: the string stored under each key, if any. -/
abbrev Storage := JsString → Option JsString

/-- The method `localStorage.getItem`: the stored string, or `null`. -/
def Storage.getItem (storage : Storage) (key : JsString) : Option JsString :=
  storage key

/-- The method `localStorage.setItem`: overwrites the entry of `key`. -/
def Storage.setItem (storage : Storage) (key value : JsString) : Storage :=
  fun k => if k = key then some value else storage k

/-- The key under which the task list is stored. -/
def storageKey : JsString :=
  utf16 "atmosphere-todos"

/-- The lazy initializer of the `todos` state: `saved ? JSON.parse(saved) : []`,
where `saved` is falsy when it is `null` or the empty string. -/
def loadTodos (storage : Storage) : Except JsError JsValue :=
  match storage.getItem storageKey with
  | none => .ok (.array [])
  | some saved => if saved.isEmpty then .ok (.array []) else JSON.parse saved

/-- The persistence effect: `localStorage.setItem(key, JSON.stringify(todos))`. -/
def persistTodos (storage : Storage) (todos : List Todo) : Storage :=
  storage.setItem storageKey (JSON.stringify todos)

/-- A text that `parseValue` reads as `v` whatever follows it, and that does not
begin with white space. -/
def ReadsAs (fuel : Nat) (text : JsString) (v : JsValue) : Prop :=
  (∀ rest, parseValue fuel (text ++ rest) = .ok v rest) ∧
    ∀ rest, skipWhiteSpace (text ++ rest) = text ++ rest


/-! ## Trimming -/

theorem dropWhile_eq_self_of_head {α : Type} (p : α → Bool) (a : α) (l : List α)
    (h : p a = false) : (a :: l).dropWhile p = a :: l := by
  simp [List.dropWhile, h]

theorem trimStart_head (s : JsString) :
    trimStart s = [] ∨ ∃ a l, trimStart s = a :: l ∧ isTrimmable a = false := by
  induction s with
  | nil => left; rfl
  | cons c s ih =>
    by_cases hc : isTrimmable c = true
    · have : trimStart (c :: s) = trimStart s := by simp [trimStart, List.dropWhile, hc]
      rw [this]; exact ih
    · right
      refine ⟨c, s, ?_, by simpa using hc⟩
      simp [trimStart, List.dropWhile, hc]

theorem trimEnd_append_singleton (l : JsString) (a : CodeUnit) (h : isTrimmable a = false) :
    trimEnd (l ++ [a]) = l ++ [a] := by
  simp [trimEnd, List.dropWhile, h]

theorem trimEnd_isPrefix (s : JsString) : trimEnd s <+: s := by
  unfold trimEnd
  have h : s.reverse.dropWhile isTrimmable <:+ s.reverse := List.dropWhile_suffix _
  have := List.reverse_prefix.mpr h
  simpa using this

theorem trimEnd_last (s : JsString) :
    trimEnd s = [] ∨ ∃ l b, trimEnd s = l ++ [b] ∧ isTrimmable b = false := by
  unfold trimEnd
  rcases trimStart_head s.reverse with h | ⟨a, l, h, ha⟩
  · left
    unfold trimStart at h
    rw [h]; rfl
  · right
    refine ⟨l.reverse, a, ?_, ha⟩
    simp only [trimStart] at h
    rw [h]; simp

theorem trim_trimmed (s : JsString) : Trimmed (trim s) := by
  unfold trim
  rcases trimStart_head s with h | ⟨a, l, h, ha⟩
  · rw [h]; exact Trimmed.empty
  · rw [h]
    rcases trimEnd_last (a :: l) with h2 | ⟨m, b, h2, hb⟩
    · rw [h2]; exact Trimmed.empty
    · rw [h2]
      have hp : m ++ [b] <+: a :: l := h2 ▸ trimEnd_isPrefix (a :: l)
      cases m with
      | nil =>
        exact Trimmed.single b hb
      | cons x m =>
        obtain ⟨t, ht⟩ := hp
        have hx : x = a := by
          simp at ht
          exact ht.1
        subst hx
        exact Trimmed.delimited x b m ha hb

theorem trim_of_trimmed {s : JsString} (h : Trimmed s) : trim s = s := by
  cases h with
  | empty => rfl
  | single a ha =>
    have h1 : trimStart [a] = [a] := dropWhile_eq_self_of_head _ _ _ ha
    have h2 := trimEnd_append_singleton [] a ha
    simp only [List.nil_append] at h2
    rw [trim, h1, h2]
  | delimited a b m ha hb =>
    have h1 : trimStart (a :: (m ++ [b])) = a :: (m ++ [b]) :=
      dropWhile_eq_self_of_head _ _ _ ha
    have h2 := trimEnd_append_singleton (a :: m) b hb
    simp only [List.cons_append] at h2
    rw [trim, h1, h2]

theorem trim_idem (s : JsString) : trim (trim s) = trim s :=
  trim_of_trimmed (trim_trimmed s)

theorem not_blank_of_trimmed {s : JsString} (h : Trimmed s) (hne : s ≠ []) :
    isBlank s = false := by
  cases h with
  | empty => exact absurd rfl hne
  | single a ha => simp [isBlank, ha]
  | delimited a b m ha hb => simp [isBlank, ha]

theorem trimStart_eq_nil_iff (s : JsString) : trimStart s = [] ↔ isBlank s = true := by
  simp [trimStart, isBlank, List.dropWhile_eq_nil_iff]

theorem trim_eq_nil_iff (s : JsString) : trim s = [] ↔ isBlank s = true := by
  constructor
  · intro h
    rcases trimStart_head s with h1 | ⟨a, l, h1, ha⟩
    · exact (trimStart_eq_nil_iff s).mp h1
    · exfalso
      unfold trim at h
      rw [h1] at h
      unfold trimEnd at h
      have : ((a :: l).reverse.dropWhile isTrimmable) = [] := by simpa using h
      rw [List.dropWhile_eq_nil_iff] at this
      have := this a (by simp)
      simp [ha] at this
  · intro h
    have := (trimStart_eq_nil_iff s).mpr h
    simp [trim, this, trimEnd]

/-! ## The handlers on the task list -/

theorem addTodo_of_trim_ne_nil (uuid now : JsString) (st : AppState) (h : trim st.input ≠ []) :
    addTodo uuid now st =
      { todos := { id := uuid, text := trim st.input, completed := false, createdAt := now }
          :: st.todos,
        input := [] } := by
  unfold addTodo
  have : (trim st.input).isEmpty = false := by
    cases htr : trim st.input with
    | nil => exact absurd htr h
    | cons a l => rfl
  simp [this]

theorem addTodo_of_trim_eq_nil (uuid now : JsString) (st : AppState) (h : trim st.input = []) :
    addTodo uuid now st = st := by
  unfold addTodo
  simp [h]

theorem ids_toggleTodo (id : JsString) (st : AppState) :
    ids (toggleTodo id st).todos = ids st.todos := by
  unfold toggleTodo ids
  simp only [List.map_map]
  apply List.map_congr_left
  intro t _
  by_cases h : t.id = id <;> simp [h]

theorem toggleTodo_of_not_mem (id : JsString) (st : AppState) (h : id ∉ ids st.todos) :
    toggleTodo id st = st := by
  unfold toggleTodo
  have : (st.todos.map fun todo =>
      if todo.id = id then { todo with completed := !todo.completed } else todo) = st.todos := by
    conv_rhs => rw [← List.map_id st.todos]
    apply List.map_congr_left
    intro t ht
    have : t.id ≠ id := by
      intro e
      apply h
      rw [← e]
      exact List.mem_map_of_mem Todo.id ht
    simp [this]
  rw [this]

theorem deleteTodo_of_not_mem (id : JsString) (st : AppState) (h : id ∉ ids st.todos) :
    deleteTodo id st = st := by
  unfold deleteTodo
  have : (st.todos.filter fun todo => todo.id ≠ id) = st.todos := by
    rw [List.filter_eq_self]
    intro t ht
    have : t.id ≠ id := by
      intro e
      apply h
      rw [← e]
      exact List.mem_map_of_mem Todo.id ht
    simpa using this
  rw [this]

theorem ids_deleteTodo (id : JsString) (st : AppState) :
    ids (deleteTodo id st).todos = (ids st.todos).filter fun x => x ≠ id := by
  unfold deleteTodo ids
  simp only [List.filter_map]
  rfl

theorem length_filter_ne_of_nodup (id : JsString) (l : List Todo)
    (hn : (ids l).Nodup) (hm : id ∈ ids l) :
    (l.filter fun todo => todo.id ≠ id).length + 1 = l.length := by
  induction l with
  | nil => simp [ids] at hm
  | cons t l ih =>
    simp only [ids, List.map_cons, List.nodup_cons] at hn
    by_cases e : t.id = id
    · have hnot : id ∉ ids l := by rw [← e]; exact hn.1
      have := deleteTodo_of_not_mem id { todos := l, input := [] } hnot
      simp only [deleteTodo, AppState.mk.injEq, and_true] at this
      rw [List.filter_cons_of_neg (by simpa using e), this]
      rfl
    · have hm2 : id ∈ ids l := by
        simp only [ids, List.map_cons, List.mem_cons] at hm
        rcases hm with hm | hm
        · exact absurd hm.symm e
        · exact hm
      have := ih hn.2 hm2
      rw [List.filter_cons_of_pos (by simpa using e)]
      simp only [List.length_cons]
      omega

theorem textsOk_addTodo (uuid now : JsString) (st : AppState) (h : TextsOk st.todos) :
    TextsOk (addTodo uuid now st).todos := by
  by_cases hz : trim st.input = []
  · rw [addTodo_of_trim_eq_nil uuid now st hz]; exact h
  · rw [addTodo_of_trim_ne_nil uuid now st hz]
    intro t ht
    simp only [List.mem_cons] at ht
    rcases ht with rfl | ht
    · exact ⟨hz, not_blank_of_trimmed (trim_trimmed _) hz, trim_idem _⟩
    · exact h t ht

theorem textsOk_toggleTodo (id : JsString) (st : AppState) (h : TextsOk st.todos) :
    TextsOk (toggleTodo id st).todos := by
  intro t ht
  simp only [toggleTodo, List.mem_map] at ht
  obtain ⟨u, hu, rfl⟩ := ht
  by_cases e : u.id = id
  · simpa [e] using h u hu
  · simpa [e] using h u hu

theorem textsOk_deleteTodo (id : JsString) (st : AppState) (h : TextsOk st.todos) :
    TextsOk (deleteTodo id st).todos := by
  intro t ht
  simp only [deleteTodo, List.mem_filter] at ht
  exact h t ht.1

theorem textsOk_step (a : Action) (st : AppState) (h : TextsOk st.todos) :
    TextsOk (step st a).todos := by
  cases a with
  | type value => exact h
  | add uuid now => exact textsOk_addTodo uuid now st h
  | toggle id => exact textsOk_toggleTodo id st h
  | delete id => exact textsOk_deleteTodo id st h

theorem textsOk_run (acts : List Action) (st : AppState) (h : TextsOk st.todos) :
    TextsOk (run st acts).todos := by
  induction acts generalizing st with
  | nil => exact h
  | cons a acts ih => exact ih (step st a) (textsOk_step a st h)

theorem nodup_addTodo (uuid now : JsString) (st : AppState)
    (h : (ids st.todos).Nodup) (hf : uuid ∉ ids st.todos) :
    (ids (addTodo uuid now st).todos).Nodup := by
  by_cases hz : trim st.input = []
  · rw [addTodo_of_trim_eq_nil uuid now st hz]; exact h
  · rw [addTodo_of_trim_ne_nil uuid now st hz]
    simp only [ids, List.map_cons, List.nodup_cons]
    exact ⟨hf, h⟩

theorem nodup_toggleTodo (id : JsString) (st : AppState) (h : (ids st.todos).Nodup) :
    (ids (toggleTodo id st).todos).Nodup := by
  rw [ids_toggleTodo]; exact h

theorem nodup_deleteTodo (id : JsString) (st : AppState) (h : (ids st.todos).Nodup) :
    (ids (deleteTodo id st).todos).Nodup := by
  rw [ids_deleteTodo]; exact h.filter _

theorem nodup_run (acts : List Action) (st : AppState)
    (h : (ids st.todos).Nodup) (hf : freshIds st acts = true) :
    (ids (run st acts).todos).Nodup := by
  induction acts generalizing st with
  | nil => exact h
  | cons a acts ih =>
    cases a with
    | type value =>
      exact ih (step st (.type value)) h (by simpa [freshIds] using hf)
    | add uuid now =>
      simp only [freshIds, Bool.and_eq_true, Bool.not_eq_true'] at hf
      have hf1 : uuid ∉ ids st.todos := by
        intro hmem
        have := List.elem_eq_true_of_mem hmem
        have h1 := hf.1
        simp only [List.contains] at h1
        rw [this] at h1
        exact Bool.noConfusion h1
      exact ih (step st (.add uuid now)) (nodup_addTodo uuid now st h hf1) hf.2
    | toggle id =>
      exact ih (step st (.toggle id)) (nodup_toggleTodo id st h) (by simpa [freshIds] using hf)
    | delete id =>
      exact ih (step st (.delete id)) (nodup_deleteTodo id st h) (by simpa [freshIds] using hf)

/-! ## Rounding -/

theorem roundTiesToEven_error (q : ℚ) : |(roundTiesToEven q : ℚ) - q| ≤ 1 / 2 := by
  have h1 : (⌊q⌋ : ℚ) ≤ q := Int.floor_le q
  have h2 : q < ⌊q⌋ + 1 := Int.lt_floor_add_one q
  unfold roundTiesToEven
  split_ifs with ha hb hc
  · rw [abs_le]; constructor <;> linarith
  · rw [abs_le]; push_cast; constructor <;> linarith
  · rw [abs_le]; constructor <;> linarith
  · rw [abs_le]; push_cast; constructor <;> linarith

theorem roundF64_zero : roundF64 0 = 0 := by
  simp [roundF64]

theorem roundF64_error {q : ℚ} (hq : 0 < q) : |roundF64 q - q| ≤ q / 2 ^ 53 := by
  have hne : q ≠ 0 := ne_of_gt hq
  have habs : |q| = q := abs_of_pos hq
  have hlog : (2 : ℚ) ^ Int.log 2 q ≤ q := by
    have := Int.zpow_log_le_self (b := 2) (r := q) (by norm_num) hq
    simpa using this
  set e : ℤ := Int.log 2 q - 52 with he
  have hpos : (0 : ℚ) < 2 ^ e := zpow_pos (by norm_num) e
  have hround := roundTiesToEven_error (q / 2 ^ e)
  have hval : roundF64 q = (roundTiesToEven (q / 2 ^ e) : ℚ) * 2 ^ e := by
    simp [roundF64, hne, habs, he]
  have hdiff : roundF64 q - q = ((roundTiesToEven (q / 2 ^ e) : ℚ) - q / 2 ^ e) * 2 ^ e := by
    rw [hval]; field_simp
  rw [hdiff, abs_mul, abs_of_pos hpos]
  have hscale : (2 : ℚ) ^ e = 2 ^ Int.log 2 q / 2 ^ 52 := by
    rw [he, zpow_sub₀ (by norm_num : (2 : ℚ) ≠ 0)]
    norm_num
  calc |(roundTiesToEven (q / 2 ^ e) : ℚ) - q / 2 ^ e| * 2 ^ e
      ≤ 1 / 2 * 2 ^ e := by
        exact mul_le_mul_of_nonneg_right hround (le_of_lt hpos)
    _ = 2 ^ Int.log 2 q / 2 ^ 53 := by rw [hscale]; ring
    _ ≤ q / 2 ^ 53 := by
        apply div_le_div_of_nonneg_right hlog (by positivity)

theorem quotient_product_error (c t : ℕ) (hc0 : 0 < c) (hc : c ≤ t) :
    |numberMultiply (numberDivide c t) 100 - (c : ℚ) / t * 100| ≤ 300 / 2 ^ 53 := by
  have ht0 : (0 : ℚ) < t := by exact_mod_cast lt_of_lt_of_le hc0 hc
  have hcq : (0 : ℚ) < c := by exact_mod_cast hc0
  have hx0 : (0 : ℚ) < (c : ℚ) / t := div_pos hcq ht0
  have hx1 : (c : ℚ) / t ≤ 1 := by
    rw [div_le_one ht0]; exact_mod_cast hc
  unfold numberMultiply numberDivide
  set x : ℚ := (c : ℚ) / t with hx
  set a : ℚ := roundF64 x with ha
  have h1 : |a - x| ≤ x / 2 ^ 53 := roundF64_error hx0
  have h1' : |a - x| ≤ 1 / 2 ^ 53 := by
    refine le_trans h1 ?_
    exact div_le_div_of_nonneg_right hx1 (by positivity)
  have ha0 : 0 < a := by
    have := (abs_le.mp h1).1
    have hlt : x / 2 ^ 53 < x := by
      rw [div_lt_iff₀ (by positivity)]
      nlinarith
    linarith
  have ha2 : a ≤ 2 := by
    have := (abs_le.mp h1').2
    have : (1 : ℚ) / 2 ^ 53 ≤ 1 := by norm_num
    linarith
  have h2 : |roundF64 (a * 100) - a * 100| ≤ a * 100 / 2 ^ 53 :=
    roundF64_error (by positivity)
  have h2' : |roundF64 (a * 100) - a * 100| ≤ 200 / 2 ^ 53 := by
    refine le_trans h2 ?_
    apply div_le_div_of_nonneg_right _ (by positivity)
    linarith
  have e1 := abs_le.mp h1'
  have e2 := abs_le.mp h2'
  rw [abs_le]
  constructor <;> linarith [e1.1, e1.2, e2.1, e2.2]

theorem percentage_nearest (c t : ℕ) (ht : 0 < t) (hc : c ≤ t) (hlen : t < 2 ^ 32) :
    |((Math.round (numberMultiply (numberDivide c t) 100) : ℤ) : ℚ) - (c : ℚ) / t * 100|
      ≤ 1 / 2 := by
  have ht0 : (0 : ℚ) < t := by exact_mod_cast ht
  rcases Nat.eq_zero_or_pos c with hc0 | hc0
  · subst hc0
    simp [numberMultiply, numberDivide, roundF64_zero, Math.round]
    norm_num
  · have herr := abs_le.mp (quotient_product_error c t hc0 hc)
    set b : ℚ := numberMultiply (numberDivide c t) 100 with hb
    set P : ℤ := Math.round b with hP
    have hP1 : (P : ℚ) ≤ b + 1 / 2 := Int.floor_le _
    have hP2 : b + 1 / 2 < P + 1 := Int.lt_floor_add_one _
    have htq : (t : ℚ) < 2 ^ 32 := by exact_mod_cast hlen
    have hsmall : (600 : ℚ) / 2 ^ 53 * t < 1 := by
      have : (600 : ℚ) / 2 ^ 53 * t < 600 / 2 ^ 53 * 2 ^ 32 :=
        mul_lt_mul_of_pos_left htq (by norm_num)
      have : (600 : ℚ) / 2 ^ 53 * 2 ^ 32 < 1 := by norm_num
      linarith
    have hmul : (c : ℚ) / t * 100 * (2 * t) = 200 * c := by
      field_simp; ring
    -- the distance, scaled by `2 * t`, is an integer below `t + 1`
    have hup : (2 * t * P - 200 * c : ℚ) < t + 1 := by
      have : (P : ℚ) - (c : ℚ) / t * 100 ≤ 1 / 2 + 300 / 2 ^ 53 := by linarith [herr.2]
      have := mul_le_mul_of_nonneg_right this (by positivity : (0 : ℚ) ≤ 2 * t)
      nlinarith
    have hlo : -((t : ℚ) + 1) < 2 * t * P - 200 * c := by
      have : -(1 / 2 + 300 / 2 ^ 53) < (P : ℚ) - (c : ℚ) / t * 100 := by linarith [herr.1]
      have := mul_lt_mul_of_pos_right this (by positivity : (0 : ℚ) < 2 * t)
      nlinarith
    have hupZ : (2 * t * P - 200 * c : ℤ) < t + 1 := by exact_mod_cast hup
    have hloZ : -((t : ℤ) + 1) < 2 * t * P - 200 * c := by exact_mod_cast hlo
    have hupZ' : (2 * t * P - 200 * c : ℤ) ≤ t := by omega
    have hloZ' : -(t : ℤ) ≤ 2 * t * P - 200 * c := by omega
    have hupQ : (2 * t * P - 200 * c : ℚ) ≤ t := by exact_mod_cast hupZ'
    have hloQ : -(t : ℚ) ≤ 2 * t * P - 200 * c := by exact_mod_cast hloZ'
    rw [abs_le]
    constructor
    · rw [← sub_nonneg]
      have : 0 ≤ ((P : ℚ) - (c : ℚ) / t * 100 - -(1 / 2)) * (2 * t) := by
        have e : ((P : ℚ) - (c : ℚ) / t * 100 - -(1 / 2)) * (2 * t)
            = 2 * t * P - 200 * c + t := by
          rw [sub_mul, sub_mul, hmul]; ring
        rw [e]; linarith
      exact nonneg_of_mul_nonneg_left this (by positivity)
    · rw [← sub_nonneg]
      have : 0 ≤ (1 / 2 - ((P : ℚ) - (c : ℚ) / t * 100)) * (2 * t) := by
        have e : (1 / 2 - ((P : ℚ) - (c : ℚ) / t * 100)) * (2 * t)
            = t - (2 * t * P - 200 * c) := by
          rw [sub_mul, sub_mul, hmul]; ring
        rw [e]; linarith
      exact nonneg_of_mul_nonneg_left this (by positivity)

/-- The operands that `stats` rounds lie far inside the normal range of binary64:
the quotient in `(2^-32, 1]`, the product in `(0, 200]`. -/
theorem stats_operands_in_range (c t : ℕ) (hc0 : 0 < c) (hc : c ≤ t) (hlen : t < 2 ^ 32) :
    (1 : ℚ) / 2 ^ 32 < (c : ℚ) / t ∧ (c : ℚ) / t ≤ 1 ∧
      0 < numberDivide c t * 100 ∧ numberDivide c t * 100 ≤ 200 := by
  have ht0 : (0 : ℚ) < t := by exact_mod_cast lt_of_lt_of_le hc0 hc
  have hcq : (1 : ℚ) ≤ c := by exact_mod_cast hc0
  have htq : (t : ℚ) < 2 ^ 32 := by exact_mod_cast hlen
  have hx1 : (c : ℚ) / t ≤ 1 := by
    rw [div_le_one ht0]; exact_mod_cast hc
  have hx0 : (1 : ℚ) / 2 ^ 32 < (c : ℚ) / t := by
    rw [div_lt_div_iff₀ (by positivity) ht0]
    nlinarith
  have hpos : (0 : ℚ) < (c : ℚ) / t := lt_trans (by positivity) hx0
  have h1 : |numberDivide c t - (c : ℚ) / t| ≤ (c : ℚ) / t / 2 ^ 53 := roundF64_error hpos
  have hlt : (c : ℚ) / t / 2 ^ 53 < (c : ℚ) / t := by
    rw [div_lt_iff₀ (by positivity)]
    nlinarith
  have hle : (c : ℚ) / t / 2 ^ 53 ≤ 1 := le_trans (le_of_lt hlt) hx1
  have e := abs_le.mp h1
  refine ⟨hx0, hx1, ?_, ?_⟩ <;> linarith [e.1, e.2]

theorem roundTiesToEven_eq_of_close (z : ℚ) (n : ℤ) (h : |z - n| < 1 / 2) :
    roundTiesToEven z = n := by
  have h' := abs_lt.mp h
  rcases le_or_lt (n : ℚ) z with hz | hz
  · have hf : ⌊z⌋ = n := by
      rw [Int.floor_eq_iff]
      constructor
      · exact hz
      · linarith [h'.2]
    unfold roundTiesToEven
    rw [hf, if_pos (by linarith [h'.2])]
  · have hf : ⌊z⌋ = n - 1 := by
      rw [Int.floor_eq_iff]
      push_cast
      constructor
      · linarith [h'.1]
      · linarith
    unfold roundTiesToEven
    rw [hf]
    push_cast
    rw [if_neg (by linarith [h'.1]), if_pos (by linarith [h'.1])]
    ring

theorem nearest_of_within_half (p : ℤ) (x : ℚ) (h : |(p : ℚ) - x| ≤ 1 / 2) (k : ℤ) :
    |(p : ℚ) - x| ≤ |(k : ℚ) - x| := by
  rcases eq_or_ne k p with rfl | hne
  · exact le_refl _
  · have h1 : (1 : ℚ) ≤ |(k : ℚ) - p| := by
      have : (1 : ℤ) ≤ |k - p| := Int.one_le_abs (sub_ne_zero.mpr hne)
      exact_mod_cast this
    have h2 : |(k : ℚ) - p| ≤ |(k : ℚ) - x| + |(p : ℚ) - x| := by
      have := abs_sub_le (k : ℚ) x p
      rwa [abs_sub_comm x (p : ℚ)] at this
    linarith

theorem roundF64_eq_of_close (q : ℚ) (e n : ℤ) (h1 : 2 ^ e ≤ q) (h2 : q < 2 ^ (e + 1))
    (hn : |q / 2 ^ (e - 52) - n| < 1 / 2) : roundF64 q = n * 2 ^ (e - 52) := by
  have hq : 0 < q := lt_of_lt_of_le (zpow_pos (by norm_num) e) h1
  have hlog : Int.log 2 q = e := by
    apply le_antisymm
    · have := (Int.lt_zpow_iff_log_lt (b := 2) (by norm_num) (x := e + 1) hq).mp
        (by simpa using h2)
      omega
    · exact (Int.zpow_le_iff_le_log (b := 2) (by norm_num) (x := e) hq).mp (by simpa using h1)
  unfold roundF64
  rw [if_neg (ne_of_gt hq), abs_of_pos hq, hlog, roundTiesToEven_eq_of_close _ n hn]

/-- A tie resolved downwards: with 23 of 40 tasks completed the exact percentage is
`57.5`, the binary64 product is just below it, and `stats` reports `57`. -/
theorem stats_tie_23_of_40 :
    (stats (List.replicate 23 { id := [], text := [], completed := true, createdAt := [] } ++
      List.replicate 17 { id := [], text := [], completed := false, createdAt := [] })).percentage
      = 57 := by
  have hd : numberDivide 23 40 = 5179139571476070 * 2 ^ (-1 - 52 : ℤ) := by
    unfold numberDivide
    apply roundF64_eq_of_close
    · norm_num
    · norm_num
    · rw [abs_lt]; constructor <;> norm_num
  have hm : numberMultiply (numberDivide 23 40) 100 = 8092405580431359 * 2 ^ (5 - 52 : ℤ) := by
    rw [hd]
    unfold numberMultiply
    apply roundF64_eq_of_close
    · norm_num
    · norm_num
    · rw [abs_lt]; constructor <;> norm_num
  have hl : (List.replicate 23 ({ id := [], text := [], completed := true, createdAt := [] } : Todo)
      ++ List.replicate 17 ({ id := [], text := [], completed := false, createdAt := [] } : Todo)).length
      = 40 := by decide
  have hc : ((List.replicate 23 ({ id := [], text := [], completed := true, createdAt := [] } : Todo)
      ++ List.replicate 17 ({ id := [], text := [], completed := false, createdAt := [] } : Todo)).filter
        fun t => t.completed).length = 23 := by decide
  unfold stats
  simp only [hl, hc]
  norm_num [hm, Math.round]

/-! ## Strings in JSON text -/

theorem hexValue_hexDigit (n : Nat) (h : n < 16) : hexValue (hexDigit n) = some n := by
  interval_cases n <;> rfl

theorem ofNat_hex_digits (c : CodeUnit) :
    (Fin.ofNat ((((c.val / 4096) * 16 + c.val / 256 % 16) * 16 + c.val / 16 % 16) * 16
      + c.val % 16) : CodeUnit) = c := by
  apply Fin.ext
  have := c.isLt
  simp only [Fin.ofNat, Fin.val_mk]
  omega

theorem parseChars_unicodeEscape (c : CodeUnit) (rest : JsString) :
    parseChars (unicodeEscape c ++ rest) =
      match parseChars rest with
      | some (str, r) => some (c :: str, r)
      | none => none := by
  have hc := c.isLt
  have h1 := hexValue_hexDigit (c.val / 4096) (by omega)
  have h2 := hexValue_hexDigit (c.val / 256 % 16) (by omega)
  have h3 := hexValue_hexDigit (c.val / 16 % 16) (by omega)
  have h4 := hexValue_hexDigit (c.val % 16) (by omega)
  simp only [unicodeEscape, List.cons_append, List.nil_append]
  rw [parseChars]
  simp only [h1, h2, h3, h4, ofNat_hex_digits]
  rfl

theorem parseChars_plain (c : CodeUnit) (rest : JsString)
    (h1 : c.val ≠ 0x22) (h2 : c.val ≠ 0x5C) (h3 : ¬ c.val < 0x20) :
    parseChars (c :: rest) =
      match parseChars rest with
      | some (str, r) => some (c :: str, r)
      | none => none := by
  rw [parseChars.eq_def]
  simp only [h1, h2, h3, if_false]

theorem parseChars_shortEscape (c e : CodeUnit) (rest : JsString) (h : shortEscape c = some e) :
    parseChars (0x5C :: e :: rest) =
      match parseChars rest with
      | some (str, r) => some (c :: str, r)
      | none => none := by
  have key : e.val ≠ 0x75 ∧ simpleEscape e = some c := by
    unfold shortEscape at h
    split_ifs at h with h8 h9 hA hC hD h22 h5C <;>
      simp only [Option.some.injEq] at h <;> subst h <;>
      refine ⟨by decide, ?_⟩ <;>
      · have : c = Fin.ofNat c.val := by
          apply Fin.ext; simp [Fin.ofNat]; have := c.isLt; omega
        rw [this]
        first
          | (rw [h8]; rfl)
          | (rw [h9]; rfl)
          | (rw [hA]; rfl)
          | (rw [hC]; rfl)
          | (rw [hD]; rfl)
          | (rw [h22]; rfl)
          | (rw [h5C]; rfl)
  have v : ((0x5C : CodeUnit) : ℕ) = 0x5C := rfl
  rw [parseChars.eq_def]
  simp [key.1, key.2, v]

theorem parseChars_quoteUnit (c : CodeUnit) (rest : JsString) :
    parseChars (quoteUnit c ++ rest) =
      match parseChars rest with
      | some (str, r) => some (c :: str, r)
      | none => none := by
  unfold quoteUnit
  cases hs : shortEscape c with
  | some e =>
    simp only [List.cons_append, List.nil_append]
    exact parseChars_shortEscape c e rest hs
  | none =>
    simp only
    split_ifs with hesc
    · exact parseChars_unicodeEscape c rest
    · simp only [Bool.or_eq_true, decide_eq_true_eq, not_or] at hesc
      have h22 : c.val ≠ 0x22 := by
        intro h; simp [shortEscape, h] at hs
      have h5C : c.val ≠ 0x5C := by
        intro h; simp [shortEscape, h] at hs
      exact parseChars_plain c rest h22 h5C hesc.1.1

theorem parseChars_quote_end (rest : JsString) : parseChars (0x22 :: rest) = some ([], rest) := by
  rw [parseChars.eq_def]
  rfl

theorem parseChars_quoteChars (s rest : JsString) :
    parseChars (quoteChars s ++ 0x22 :: rest) = some (s, rest) := by
  induction s using quoteChars.induct with
  | case1 => exact parseChars_quote_end rest
  | case2 c =>
    rw [quoteChars, parseChars_quoteUnit, parseChars_quote_end]
  | case3 c d tail hpair ih =>
    simp only [Bool.and_eq_true, isLeadingSurrogate, isTrailingSurrogate,
      decide_eq_true_eq] at hpair
    rw [quoteChars, if_pos (by simp [isLeadingSurrogate, isTrailingSurrogate, hpair])]
    simp only [List.cons_append]
    rw [parseChars_plain c _ (by omega) (by omega) (by omega),
      parseChars_plain d _ (by omega) (by omega) (by omega), ih]
  | case4 c d tail hpair ih =>
    rw [quoteChars, if_neg hpair, List.append_assoc, parseChars_quoteUnit, ih]

theorem parseValue_quoteJSONString (fuel : Nat) (s rest : JsString) :
    parseValue (fuel + 1) (quoteJSONString s ++ rest) = .ok (.string s) rest := by
  have v : ((0x22 : CodeUnit) : ℕ) = 0x22 := rfl
  simp only [quoteJSONString, List.cons_append, List.append_assoc, List.nil_append]
  rw [parseValue]
  simp [v, parseChars_quoteChars]

/-! ## Task records in JSON text -/

theorem skipWhiteSpace_cons (c : CodeUnit) (l : JsString) (h : isJsonWhiteSpace c = false) :
    skipWhiteSpace (c :: l) = c :: l := by
  simp [skipWhiteSpace, List.dropWhile, h]

theorem parseValue_true (fuel : Nat) (rest : JsString) :
    parseValue (fuel + 1) (utf16 "true" ++ rest) = .ok (.bool true) rest := by
  have e : utf16 "true" = [0x74, 0x72, 0x75, 0x65] := by decide
  have v : ((0x74 : CodeUnit) : ℕ) = 0x74 := rfl
  rw [e]
  simp only [List.cons_append, List.nil_append]
  rw [parseValue]
  simp only [e, v]
  simp [List.isPrefixOf]

theorem parseValue_false (fuel : Nat) (rest : JsString) :
    parseValue (fuel + 1) (utf16 "false" ++ rest) = .ok (.bool false) rest := by
  have e : utf16 "false" = [0x66, 0x61, 0x6C, 0x73, 0x65] := by decide
  have e2 : utf16 "true" = [0x74, 0x72, 0x75, 0x65] := by decide
  have v : ((0x66 : CodeUnit) : ℕ) = 0x66 := rfl
  rw [e]
  simp only [List.cons_append, List.nil_append]
  rw [parseValue]
  simp only [e, e2, v]
  simp [List.isPrefixOf]

theorem readsAs_string (fuel : Nat) (s : JsString) :
    ReadsAs (fuel + 1) (quoteJSONString s) (.string s) :=
  ⟨fun rest => parseValue_quoteJSONString fuel s rest,
   fun rest => skipWhiteSpace_cons _ _ (by decide)⟩

theorem readsAs_bool (fuel : Nat) (b : Bool) :
    ReadsAs (fuel + 1) (if b then utf16 "true" else utf16 "false") (.bool b) := by
  cases b
  · exact ⟨fun rest => parseValue_false fuel rest, fun rest => skipWhiteSpace_cons _ _ (by decide)⟩
  · exact ⟨fun rest => parseValue_true fuel rest, fun rest => skipWhiteSpace_cons _ _ (by decide)⟩

theorem parseMembers_more (fuel : Nat) (key text more : JsString) (v : JsValue)
    (h : ReadsAs fuel text v) :
    parseMembers (fuel + 1) (quoteJSONString key ++ 0x3A :: (text ++ 0x2C :: more)) =
      match parseMembers fuel more with
      | .ok ms r => .ok ((key, v) :: ms) r
      | .syntaxError => .syntaxError
      | .outOfFuel => .outOfFuel := by
  have v22 : ((0x22 : CodeUnit) : ℕ) = 0x22 := rfl
  have v3A : ((0x3A : CodeUnit) : ℕ) = 0x3A := rfl
  have v2C : ((0x2C : CodeUnit) : ℕ) = 0x2C := rfl
  have hs1 : skipWhiteSpace (0x3A :: (text ++ 0x2C :: more)) = 0x3A :: (text ++ 0x2C :: more) :=
    skipWhiteSpace_cons _ _ (by decide)
  have hs2 : skipWhiteSpace (0x2C :: more) = 0x2C :: more :=
    skipWhiteSpace_cons _ _ (by decide)
  rw [parseMembers]
  simp only [quoteJSONString, List.cons_append, List.append_assoc, List.nil_append]
  rw [skipWhiteSpace_cons _ _ (by decide)]
  simp only [v22, if_true, parseChars_quoteChars, hs1, v3A, h.2, h.1, hs2, v2C]

theorem parseMembers_last (fuel : Nat) (key text rest : JsString) (v : JsValue)
    (h : ReadsAs fuel text v) :
    parseMembers (fuel + 1) (quoteJSONString key ++ 0x3A :: (text ++ 0x7D :: rest)) =
      .ok [(key, v)] rest := by
  have v22 : ((0x22 : CodeUnit) : ℕ) = 0x22 := rfl
  have v3A : ((0x3A : CodeUnit) : ℕ) = 0x3A := rfl
  have v7D : ((0x7D : CodeUnit) : ℕ) = 0x7D := rfl
  have hs1 : skipWhiteSpace (0x3A :: (text ++ 0x7D :: rest)) = 0x3A :: (text ++ 0x7D :: rest) :=
    skipWhiteSpace_cons _ _ (by decide)
  have hs2 : skipWhiteSpace (0x7D :: rest) = 0x7D :: rest :=
    skipWhiteSpace_cons _ _ (by decide)
  rw [parseMembers]
  simp only [quoteJSONString, List.cons_append, List.append_assoc, List.nil_append]
  rw [skipWhiteSpace_cons _ _ (by decide)]
  simp only [v22, if_true, parseChars_quoteChars, hs1, v3A, h.2, h.1, hs2, v7D]
  simp

theorem serializeTodo_append (t : Todo) (rest : JsString) :
    serializeTodo t ++ rest =
      0x7B :: (quoteJSONString (utf16 "id") ++ 0x3A :: (quoteJSONString t.id ++ 0x2C ::
        (quoteJSONString (utf16 "text") ++ 0x3A :: (quoteJSONString t.text ++ 0x2C ::
        (quoteJSONString (utf16 "completed") ++ 0x3A ::
          ((if t.completed then utf16 "true" else utf16 "false") ++ 0x2C ::
        (quoteJSONString (utf16 "createdAt") ++ 0x3A ::
          (quoteJSONString t.createdAt ++ 0x7D :: rest)))))))) := by
  have e1 : utf16 "\x7b\"id\":" = 0x7B :: (quoteJSONString (utf16 "id") ++ [0x3A]) := by decide
  have e2 : utf16 ",\"text\":" = 0x2C :: (quoteJSONString (utf16 "text") ++ [0x3A]) := by
    decide
  have e3 : utf16 ",\"completed\":" = 0x2C :: (quoteJSONString (utf16 "completed") ++ [0x3A]) := by
    decide
  have e4 : utf16 ",\"createdAt\":" = 0x2C :: (quoteJSONString (utf16 "createdAt") ++ [0x3A]) := by
    decide
  have e5 : utf16 "\x7d" = [0x7D] := by decide
  unfold serializeTodo
  rw [e1, e2, e3, e4, e5]
  simp only [List.append_assoc, List.cons_append, List.nil_append]

theorem objectOfMembers_todo (a b c d : JsValue) :
    objectOfMembers [(utf16 "id", a), (utf16 "text", b), (utf16 "completed", c),
      (utf16 "createdAt", d)] =
      [(utf16 "id", a), (utf16 "text", b), (utf16 "completed", c), (utf16 "createdAt", d)] := by
  have n1 : utf16 "id" ≠ utf16 "text" := by decide
  have n2 : utf16 "id" ≠ utf16 "completed" := by decide
  have n3 : utf16 "id" ≠ utf16 "createdAt" := by decide
  have n4 : utf16 "text" ≠ utf16 "completed" := by decide
  have n5 : utf16 "text" ≠ utf16 "createdAt" := by decide
  have n6 : utf16 "completed" ≠ utf16 "createdAt" := by decide
  simp only [objectOfMembers, List.foldl, defineProperty, if_neg n1, if_neg n2, if_neg n3,
    if_neg n4, if_neg n5, if_neg n6]

theorem parseValue_object (fuel : Nat) (tl r : JsString) (members : List (JsString × JsValue))
    (h : parseMembers fuel (0x22 :: tl) = .ok members r) :
    parseValue (fuel + 1) (0x7B :: 0x22 :: tl) = .ok (.object (objectOfMembers members)) r := by
  have v7B : ((0x7B : CodeUnit) : ℕ) = 0x7B := rfl
  have v22 : ((0x22 : CodeUnit) : ℕ) = 0x22 := rfl
  rw [parseValue]
  simp only [v7B, if_true, skipWhiteSpace_cons (0x22 : CodeUnit) tl (by decide), v22, h]
  simp

theorem readsAs_todo (fuel : Nat) (t : Todo) :
    ReadsAs (fuel + 6) (serializeTodo t) t.toJsValue := by
  constructor
  · intro rest
    rw [serializeTodo_append]
    have hm : parseMembers (fuel + 5)
        (quoteJSONString (utf16 "id") ++ 0x3A :: (quoteJSONString t.id ++ 0x2C ::
        (quoteJSONString (utf16 "text") ++ 0x3A :: (quoteJSONString t.text ++ 0x2C ::
        (quoteJSONString (utf16 "completed") ++ 0x3A ::
          ((if t.completed then utf16 "true" else utf16 "false") ++ 0x2C ::
        (quoteJSONString (utf16 "createdAt") ++ 0x3A ::
          (quoteJSONString t.createdAt ++ 0x7D :: rest)))))))) =
        .ok [(utf16 "id", .string t.id), (utf16 "text", .string t.text),
          (utf16 "completed", .bool t.completed), (utf16 "createdAt", .string t.createdAt)]
          rest := by
      rw [parseMembers_more (fuel + 4) _ _ _ _ (readsAs_string (fuel + 3) t.id),
        parseMembers_more (fuel + 3) _ _ _ _ (readsAs_string (fuel + 2) t.text),
        parseMembers_more (fuel + 2) _ _ _ _ (readsAs_bool (fuel + 1) t.completed),
        parseMembers_last (fuel + 1) _ _ _ _ (readsAs_string fuel t.createdAt)]
    have := parseValue_object (fuel + 5) _ _ _ hm
    rw [objectOfMembers_todo] at this
    exact this
  · intro rest
    rw [serializeTodo_append]
    exact skipWhiteSpace_cons _ _ (by decide)

theorem joinComma_cons_cons (x y : JsString) (l : List JsString) :
    joinComma (x :: y :: l) = x ++ 0x2C :: joinComma (y :: l) := by
  rw [joinComma]

theorem joinComma_head (t : Todo) (l : List Todo) (rest : JsString) :
    ∃ tl, joinComma ((t :: l).map serializeTodo) ++ rest = 0x7B :: tl := by
  cases l with
  | nil =>
    simp only [List.map_cons, List.map_nil, joinComma]
    rw [serializeTodo_append]
    exact ⟨_, rfl⟩
  | cons u l =>
    simp only [List.map_cons, joinComma_cons_cons, List.append_assoc]
    rw [serializeTodo_append]
    exact ⟨_, rfl⟩

theorem parseElements_todos (t : Todo) (l : List Todo) (fuel : Nat) (rest : JsString)
    (hf : l.length + 7 ≤ fuel) :
    parseElements fuel (joinComma ((t :: l).map serializeTodo) ++ 0x5D :: rest) =
      .ok ((t :: l).map Todo.toJsValue) rest := by
  have v2C : ((0x2C : CodeUnit) : ℕ) = 0x2C := rfl
  have v5D : ((0x5D : CodeUnit) : ℕ) = 0x5D := rfl
  induction l generalizing t fuel with
  | nil =>
    obtain ⟨k, rfl⟩ : ∃ k, fuel = k + 7 := ⟨fuel - 7, by simp at hf; omega⟩
    have hr := readsAs_todo k t
    simp only [List.map_cons, List.map_nil, joinComma]
    rw [show k + 7 = (k + 6) + 1 from rfl, parseElements]
    simp only [hr.2, hr.1, skipWhiteSpace_cons (0x5D : CodeUnit) rest (by decide), v5D]
    simp
  | cons u l ih =>
    obtain ⟨k, rfl⟩ : ∃ k, fuel = k + 7 := ⟨fuel - 7, by simp at hf; omega⟩
    have hr := readsAs_todo k t
    have hk : l.length + 7 ≤ k + 6 := by simp at hf; omega
    have ih' := ih u (k + 6) hk
    simp only [List.map_cons, joinComma_cons_cons, List.append_assoc, List.cons_append]
    simp only [List.map_cons] at ih'
    rw [show k + 7 = (k + 6) + 1 from rfl, parseElements]
    simp only [hr.2, hr.1, skipWhiteSpace_cons (0x2C : CodeUnit) _ (by decide), v2C, if_true, ih']

theorem length_serializeTodo (t : Todo) : 6 ≤ (serializeTodo t).length := by
  have h := congrArg List.length (serializeTodo_append t [])
  simp only [List.append_nil, List.length_cons, List.length_append] at h
  omega

theorem length_joinComma (l : List Todo) :
    6 * l.length ≤ (joinComma (l.map serializeTodo)).length := by
  induction l with
  | nil => simp
  | cons t l ih =>
    cases l with
    | nil =>
      simp only [List.map_cons, List.map_nil, joinComma, List.length_singleton]
      have := length_serializeTodo t
      omega
    | cons u l =>
      simp only [List.map_cons, joinComma_cons_cons, List.length_append, List.length_cons]
      simp only [List.map_cons, List.length_cons] at ih
      have := length_serializeTodo t
      omega

theorem parse_stringify (todos : List Todo) :
    JSON.parse (JSON.stringify todos) = .ok (todosToJsValue todos) := by
  have v5B : ((0x5B : CodeUnit) : ℕ) = 0x5B := rfl
  have v7B : ((0x7B : CodeUnit) : ℕ) = 0x7B := rfl
  cases todos with
  | nil => rfl
  | cons t l =>
    obtain ⟨tl, htl⟩ := joinComma_head t l [0x5D]
    have hlen := length_joinComma (t :: l)
    have hfuel : l.length + 7 ≤ 2 * (JSON.stringify (t :: l)).length := by
      simp only [JSON.stringify, List.length_cons, List.length_append, List.length_nil]
      simp only [List.length_cons] at hlen
      omega
    have hparse := parseElements_todos t l (2 * (JSON.stringify (t :: l)).length) [] hfuel
    unfold JSON.parse
    generalize 2 * (JSON.stringify (t :: l)).length = n at hparse ⊢
    unfold JSON.stringify
    rw [htl] at hparse ⊢
    rw [skipWhiteSpace_cons _ _ (by decide), parseValue]
    simp only [v5B, skipWhiteSpace_cons (0x7B : CodeUnit) tl (by decide), v7B, hparse]
    rfl

/-! ## Reloading what was stored -/

theorem asTodo_toJsValue (t : Todo) : t.toJsValue.asTodo = some t := by
  have n1 : utf16 "id" ≠ utf16 "text" := by decide
  have n2 : utf16 "id" ≠ utf16 "completed" := by decide
  have n3 : utf16 "id" ≠ utf16 "createdAt" := by decide
  have n4 : utf16 "text" ≠ utf16 "completed" := by decide
  have n5 : utf16 "text" ≠ utf16 "createdAt" := by decide
  have n6 : utf16 "completed" ≠ utf16 "createdAt" := by decide
  simp only [Todo.toJsValue, JsValue.asTodo, getProperty, if_true, if_neg n1, if_neg n2,
    if_neg n3, if_neg n4, if_neg n5, if_neg n6]

theorem asTodos_todosToJsValue (todos : List Todo) :
    (todosToJsValue todos).asTodos = some todos := by
  simp only [todosToJsValue, JsValue.asTodos]
  induction todos with
  | nil => rfl
  | cons t l ih =>
    simp only [List.map_cons, List.mapM_cons, asTodo_toJsValue, ih]
    rfl

theorem getItem_setItem (storage : Storage) (key value : JsString) :
    (storage.setItem key value).getItem key = some value := by
  simp [Storage.getItem, Storage.setItem]

theorem stringify_ne_nil (todos : List Todo) : JSON.stringify todos ≠ [] := by
  simp [JSON.stringify]

/-! ## The fuel of the parser is never exhausted -/

theorem length_skipWhiteSpace_le (s : JsString) : (skipWhiteSpace s).length ≤ s.length :=
  (List.dropWhile_suffix _).length_le

theorem parseChars_rest_le (s : JsString) :
    ∀ str r, parseChars s = some (str, r) → r.length ≤ s.length := by
  induction s using parseChars.induct with
  | case1 => intro str r h; simp [parseChars] at h
  | case2 c rest hc =>
    intro str r h
    rw [parseChars.eq_def] at h
    simp only [hc, if_true, Option.some.injEq, Prod.mk.injEq] at h
    rw [← h.2]; simp
  | case3 c h1 h2 =>
    intro str r h
    rw [parseChars.eq_def] at h
    simp [h1, h2] at h
  | case4 c h1 h2 e he a1 a2 a3 a4 rest2 x1 x2 x3 x4 hx4 hx3 hx2 hx1 str0 r0 hp ih =>
    intro str r h
    rw [parseChars.eq_def] at h
    simp [h1, h2, he, hx1, hx2, hx3, hx4, hp] at h
    have := ih str0 r0 hp
    rw [← h.2]
    simp only [List.length_cons]
    omega
  | case5 c h1 h2 e he a1 a2 a3 a4 rest2 x1 x2 x3 x4 hx4 hx3 hx2 hx1 hp ih =>
    intro str r h
    rw [parseChars.eq_def] at h
    simp [h1, h2, he, hx1, hx2, hx3, hx4, hp] at h
  | case6 c h1 h2 e he a1 a2 a3 a4 rest2 hx =>
    intro str r h
    rw [parseChars.eq_def] at h
    cases k1 : hexValue a1 <;> cases k2 : hexValue a2 <;> cases k3 : hexValue a3 <;>
      cases k4 : hexValue a4 <;>
      first
        | exact (hx _ _ _ _ k1 k2 k3 k4).elim
        | simp [h1, h2, he, k1, k2, k3, k4] at h
  | case7 c h1 h2 e rest1 he hx =>
    intro str r h
    rw [parseChars.eq_def] at h
    rcases rest1 with _ | ⟨b1, _ | ⟨b2, _ | ⟨b3, _ | ⟨b4, rest2⟩⟩⟩⟩
    · simp [h1, h2, he] at h
    · simp [h1, h2, he] at h
    · simp [h1, h2, he] at h
    · simp [h1, h2, he] at h
    · exact (hx _ _ _ _ _ rfl).elim
  | case8 c h1 h2 e rest1 he u hu str0 r0 hp ih =>
    intro str r h
    rw [parseChars.eq_def] at h
    simp [h1, h2, he, hu, hp] at h
    have := ih str0 r0 hp
    rw [← h.2]
    simp only [List.length_cons]
    omega
  | case9 c h1 h2 e rest1 he u hu hp ih =>
    intro str r h
    rw [parseChars.eq_def] at h
    simp [h1, h2, he, hu, hp] at h
  | case10 c h1 h2 e rest1 he hu =>
    intro str r h
    rw [parseChars.eq_def] at h
    simp [h1, h2, he, hu] at h
  | case11 c rest h1 h2 h3 =>
    intro str r h
    rw [parseChars.eq_def] at h
    simp [h1, h2, h3] at h
  | case12 c rest h1 h2 h3 str0 r0 hp ih =>
    intro str r h
    rw [parseChars.eq_def] at h
    simp [h1, h2, h3, hp] at h
    have := ih str0 r0 hp
    rw [← h.2]
    simp only [List.length_cons]
    omega
  | case13 c rest h1 h2 h3 hp ih =>
    intro str r h
    rw [parseChars.eq_def] at h
    simp [h1, h2, h3, hp] at h

theorem length_dropWhile_le {α : Type} (p : α → Bool) (l : List α) :
    (l.dropWhile p).length ≤ l.length :=
  (List.dropWhile_suffix p).length_le

theorem parseInteger_rest_le (s ds r : JsString) (h : parseInteger s = some (ds, r)) :
    r.length ≤ s.length := by
  unfold parseInteger at h
  cases s with
  | nil => simp at h
  | cons d rest =>
    simp only at h
    split_ifs at h with h0 h1
    · simp only [Option.some.injEq, Prod.mk.injEq] at h
      rw [← h.2]; simp
    · simp only [Option.some.injEq, Prod.mk.injEq] at h
      rw [← h.2]
      have := length_dropWhile_le isDigit rest
      simp only [List.length_cons]
      omega

theorem parseFraction_rest_le (s ds r : JsString) (h : parseFraction s = some (ds, r)) :
    r.length ≤ s.length := by
  unfold parseFraction at h
  cases s with
  | nil =>
    simp only [Option.some.injEq, Prod.mk.injEq] at h
    rw [← h.2]
  | cons p rest =>
    simp only at h
    split_ifs at h with h0 h1
    · simp only [Option.some.injEq, Prod.mk.injEq] at h
      rw [← h.2]
      have := length_dropWhile_le isDigit rest
      simp only [List.length_cons]
      omega
    · simp only [Option.some.injEq, Prod.mk.injEq] at h
      rw [← h.2]

theorem parseExponentSign_rest_le (s : JsString) :
    (parseExponentSign s).2.length ≤ s.length := by
  unfold parseExponentSign
  cases s with
  | nil => simp
  | cons sg rest =>
    simp only
    split_ifs <;> simp

theorem parseMinus_rest_le (s : JsString) : (parseMinus s).2.length ≤ s.length := by
  unfold parseMinus
  cases s with
  | nil => simp
  | cons m rest =>
    simp only
    split_ifs <;> simp

theorem parseExponent_rest_le (s : JsString) (e : Int) (r : JsString)
    (h : parseExponent s = some (e, r)) : r.length ≤ s.length := by
  unfold parseExponent at h
  cases s with
  | nil =>
    simp only [Option.some.injEq, Prod.mk.injEq] at h
    rw [← h.2]
  | cons c rest =>
    have h1 := parseExponentSign_rest_le rest
    have h2 := length_dropWhile_le isDigit (parseExponentSign rest).2
    simp only at h
    split_ifs at h <;>
      · simp only [Option.some.injEq, Prod.mk.injEq] at h
        obtain ⟨_, rfl⟩ := h
        first
          | omega
          | (simp only [List.length_cons]; omega)

theorem parseNumber_rest_le (s : JsString) (v : JsValue) (r : JsString)
    (h : parseNumber s = some (v, r)) : r.length ≤ s.length := by
  unfold parseNumber at h
  have h0 := parseMinus_rest_le s
  split at h
  · exact absurd h (by simp)
  · rename_i intDigits s1 hi
    have h1 := parseInteger_rest_le _ _ _ hi
    split at h
    · exact absurd h (by simp)
    · rename_i fracDigits s2 hf
      have h2 := parseFraction_rest_le _ _ _ hf
      split at h
      · exact absurd h (by simp)
      · rename_i e s3 he
        have h3 := parseExponent_rest_le _ _ _ he
        simp only [Option.some.injEq, Prod.mk.injEq] at h
        rw [← h.2]
        omega

theorem parseValue_rest_le_step (fuel : Nat)
    (ihE : ∀ s vs r, parseElements fuel s = .ok vs r → r.length ≤ s.length)
    (ihM : ∀ s ms r, parseMembers fuel s = .ok ms r → r.length ≤ s.length)
    (s : JsString) (v : JsValue) (r : JsString) (h : parseValue (fuel + 1) s = .ok v r) :
    r.length ≤ s.length := by
  cases s with
  | nil => simp [parseValue] at h
  | cons c rest =>
    rw [parseValue] at h
    have hskip := length_skipWhiteSpace_le rest
    split_ifs at h with h7B h5B h22 ht hf hn
    · -- object
      cases hs : skipWhiteSpace rest with
      | nil => simp [hs] at h
      | cons d rest1 =>
        rw [hs] at hskip
        simp only [hs] at h
        split_ifs at h with h7D
        · simp only [ParseResult.ok.injEq] at h
          obtain ⟨_, rfl⟩ := h
          simp only [List.length_cons] at hskip ⊢
          omega
        · cases hm : parseMembers fuel (d :: rest1) with
          | ok members r1 =>
            simp only [hm, ParseResult.ok.injEq] at h
            obtain ⟨_, rfl⟩ := h
            have := ihM _ _ _ hm
            simp only [List.length_cons] at hskip this ⊢
            omega
          | syntaxError => simp [hm] at h
          | outOfFuel => simp [hm] at h
    · -- array
      cases hs : skipWhiteSpace rest with
      | nil => simp [hs] at h
      | cons d rest1 =>
        rw [hs] at hskip
        simp only [hs] at h
        split_ifs at h with h5D
        · simp only [ParseResult.ok.injEq] at h
          obtain ⟨_, rfl⟩ := h
          simp only [List.length_cons] at hskip ⊢
          omega
        · cases hm : parseElements fuel (d :: rest1) with
          | ok items r1 =>
            simp only [hm, ParseResult.ok.injEq] at h
            obtain ⟨_, rfl⟩ := h
            have := ihE _ _ _ hm
            simp only [List.length_cons] at hskip this ⊢
            omega
          | syntaxError => simp [hm] at h
          | outOfFuel => simp [hm] at h
    · -- string
      cases hp : parseChars rest with
      | none => simp [hp] at h
      | some p =>
        obtain ⟨str, r1⟩ := p
        simp only [hp, ParseResult.ok.injEq] at h
        obtain ⟨_, rfl⟩ := h
        have := parseChars_rest_le _ _ _ hp
        simp only [List.length_cons]
        omega
    · simp only [ParseResult.ok.injEq] at h
      obtain ⟨_, rfl⟩ := h
      simp only [List.length_drop, List.length_cons]
      omega
    · simp only [ParseResult.ok.injEq] at h
      obtain ⟨_, rfl⟩ := h
      simp only [List.length_drop, List.length_cons]
      omega
    · simp only [ParseResult.ok.injEq] at h
      obtain ⟨_, rfl⟩ := h
      simp only [List.length_drop, List.length_cons]
      omega
    · cases hp : parseNumber (c :: rest) with
      | none => simp [hp] at h
      | some p =>
        obtain ⟨w, r1⟩ := p
        simp only [hp, ParseResult.ok.injEq] at h
        obtain ⟨_, rfl⟩ := h
        exact parseNumber_rest_le _ _ _ hp

theorem parseElements_rest_le_step (fuel : Nat)
    (ihV : ∀ s v r, parseValue fuel s = .ok v r → r.length ≤ s.length)
    (ihE : ∀ s vs r, parseElements fuel s = .ok vs r → r.length ≤ s.length)
    (s : JsString) (vs : List JsValue) (r : JsString)
    (h : parseElements (fuel + 1) s = .ok vs r) : r.length ≤ s.length := by
  rw [parseElements] at h
  have hskip := length_skipWhiteSpace_le s
  cases hv : parseValue fuel (skipWhiteSpace s) with
  | syntaxError => simp [hv] at h
  | outOfFuel => simp [hv] at h
  | ok v r0 =>
    have h0 := ihV _ _ _ hv
    have hskip0 := length_skipWhiteSpace_le r0
    simp only [hv] at h
    cases hs : skipWhiteSpace r0 with
    | nil => simp [hs] at h
    | cons c r1 =>
      rw [hs] at hskip0
      simp only [hs] at h
      split_ifs at h with h2C h5D
      · cases he : parseElements fuel r1 with
        | ok items r2 =>
          simp only [he, ParseResult.ok.injEq] at h
          obtain ⟨_, rfl⟩ := h
          have := ihE _ _ _ he
          simp only [List.length_cons] at hskip0
          omega
        | syntaxError => simp [he] at h
        | outOfFuel => simp [he] at h
      · simp only [ParseResult.ok.injEq] at h
        obtain ⟨_, rfl⟩ := h
        simp only [List.length_cons] at hskip0
        omega

theorem parseMembers_rest_le_step (fuel : Nat)
    (ihV : ∀ s v r, parseValue fuel s = .ok v r → r.length ≤ s.length)
    (ihM : ∀ s ms r, parseMembers fuel s = .ok ms r → r.length ≤ s.length)
    (s : JsString) (ms : List (JsString × JsValue)) (r : JsString)
    (h : parseMembers (fuel + 1) s = .ok ms r) : r.length ≤ s.length := by
  rw [parseMembers] at h
  have hskip := length_skipWhiteSpace_le s
  cases hs : skipWhiteSpace s with
  | nil => simp [hs] at h
  | cons q r0 =>
    rw [hs] at hskip
    simp only [hs] at h
    split_ifs at h with h22
    cases hk : parseChars r0 with
    | none => simp [hk] at h
    | some p =>
      obtain ⟨key, r1⟩ := p
      have hk1 := parseChars_rest_le _ _ _ hk
      have hskip1 := length_skipWhiteSpace_le r1
      simp only [hk] at h
      cases hs1 : skipWhiteSpace r1 with
      | nil => simp [hs1] at h
      | cons colon r2 =>
        rw [hs1] at hskip1
        have hskip2 := length_skipWhiteSpace_le r2
        simp only [hs1] at h
        split_ifs at h with h3A
        cases hv : parseValue fuel (skipWhiteSpace r2) with
        | syntaxError => simp [hv] at h
        | outOfFuel => simp [hv] at h
        | ok v r3 =>
          have h3 := ihV _ _ _ hv
          have hskip3 := length_skipWhiteSpace_le r3
          simp only [hv] at h
          cases hs3 : skipWhiteSpace r3 with
          | nil => simp [hs3] at h
          | cons c r4 =>
            rw [hs3] at hskip3
            simp only [hs3] at h
            simp only [List.length_cons] at hskip hskip1 hskip3
            split_ifs at h with h2C h7D
            · cases hm : parseMembers fuel r4 with
              | ok items r5 =>
                simp only [hm, ParseResult.ok.injEq] at h
                obtain ⟨_, rfl⟩ := h
                have := ihM _ _ _ hm
                omega
              | syntaxError => simp [hm] at h
              | outOfFuel => simp [hm] at h
            · simp only [ParseResult.ok.injEq] at h
              obtain ⟨_, rfl⟩ := h
              omega

theorem parse_rest_le (fuel : Nat) :
    (∀ s v r, parseValue fuel s = .ok v r → r.length ≤ s.length) ∧
      (∀ s vs r, parseElements fuel s = .ok vs r → r.length ≤ s.length) ∧
      (∀ s ms r, parseMembers fuel s = .ok ms r → r.length ≤ s.length) := by
  induction fuel with
  | zero =>
    refine ⟨?_, ?_, ?_⟩ <;> intro s v r h
    · simp [parseValue] at h
    · simp [parseElements] at h
    · simp [parseMembers] at h
  | succ fuel ih =>
    exact ⟨parseValue_rest_le_step fuel ih.2.1 ih.2.2,
      parseElements_rest_le_step fuel ih.1 ih.2.1,
      parseMembers_rest_le_step fuel ih.1 ih.2.2⟩

theorem parseValue_fuel_step (fuel : Nat)
    (ihE : ∀ s, 2 * s.length + 2 ≤ fuel → parseElements fuel s ≠ .outOfFuel)
    (ihM : ∀ s, 2 * s.length + 2 ≤ fuel → parseMembers fuel s ≠ .outOfFuel)
    (s : JsString) (hf : 2 * s.length + 1 ≤ fuel + 1) :
    parseValue (fuel + 1) s ≠ .outOfFuel := by
  intro h
  cases s with
  | nil => simp [parseValue] at h
  | cons c rest =>
    rw [parseValue] at h
    have hskip := length_skipWhiteSpace_le rest
    simp only [List.length_cons] at hf
    split_ifs at h with h7B h5B h22 ht hfl hn
    · cases hs : skipWhiteSpace rest with
      | nil => simp [hs] at h
      | cons d rest1 =>
        rw [hs] at hskip
        simp only [hs] at h
        simp only [List.length_cons] at hskip
        split_ifs at h with h7D
        cases hm : parseMembers fuel (d :: rest1) with
        | ok members r1 => simp [hm] at h
        | syntaxError => simp [hm] at h
        | outOfFuel =>
          exact ihM (d :: rest1) (by simp only [List.length_cons]; omega) hm
    · cases hs : skipWhiteSpace rest with
      | nil => simp [hs] at h
      | cons d rest1 =>
        rw [hs] at hskip
        simp only [hs] at h
        simp only [List.length_cons] at hskip
        split_ifs at h with h5D
        cases hm : parseElements fuel (d :: rest1) with
        | ok items r1 => simp [hm] at h
        | syntaxError => simp [hm] at h
        | outOfFuel =>
          exact ihE (d :: rest1) (by simp only [List.length_cons]; omega) hm
    · cases hp : parseChars rest with
      | none => simp [hp] at h
      | some p => simp [hp] at h
    · cases hp : parseNumber (c :: rest) with
      | none => simp [hp] at h
      | some p => simp [hp] at h

theorem parseElements_fuel_step (fuel : Nat)
    (ihV : ∀ s, 2 * s.length + 1 ≤ fuel → parseValue fuel s ≠ .outOfFuel)
    (ihE : ∀ s, 2 * s.length + 2 ≤ fuel → parseElements fuel s ≠ .outOfFuel)
    (s : JsString) (hf : 2 * s.length + 2 ≤ fuel + 1) :
    parseElements (fuel + 1) s ≠ .outOfFuel := by
  intro h
  rw [parseElements] at h
  have hskip := length_skipWhiteSpace_le s
  cases hv : parseValue fuel (skipWhiteSpace s) with
  | syntaxError => simp [hv] at h
  | outOfFuel => exact ihV _ (by omega) hv
  | ok v r0 =>
    have h0 := (parse_rest_le fuel).1 _ _ _ hv
    have hskip0 := length_skipWhiteSpace_le r0
    simp only [hv] at h
    cases hs : skipWhiteSpace r0 with
    | nil => simp [hs] at h
    | cons c r1 =>
      rw [hs] at hskip0
      simp only [hs] at h
      simp only [List.length_cons] at hskip0
      split_ifs at h with h2C h5D
      cases he : parseElements fuel r1 with
      | ok items r2 => simp [he] at h
      | syntaxError => simp [he] at h
      | outOfFuel => exact ihE r1 (by omega) he

theorem parseMembers_fuel_step (fuel : Nat)
    (ihV : ∀ s, 2 * s.length + 1 ≤ fuel → parseValue fuel s ≠ .outOfFuel)
    (ihM : ∀ s, 2 * s.length + 2 ≤ fuel → parseMembers fuel s ≠ .outOfFuel)
    (s : JsString) (hf : 2 * s.length + 2 ≤ fuel + 1) :
    parseMembers (fuel + 1) s ≠ .outOfFuel := by
  intro h
  rw [parseMembers] at h
  have hskip := length_skipWhiteSpace_le s
  cases hs : skipWhiteSpace s with
  | nil => simp [hs] at h
  | cons q r0 =>
    rw [hs] at hskip
    simp only [hs] at h
    split_ifs at h with h22
    cases hk : parseChars r0 with
    | none => simp [hk] at h
    | some p =>
      obtain ⟨key, r1⟩ := p
      have hk1 := parseChars_rest_le _ _ _ hk
      have hskip1 := length_skipWhiteSpace_le r1
      simp only [hk] at h
      cases hs1 : skipWhiteSpace r1 with
      | nil => simp [hs1] at h
      | cons colon r2 =>
        rw [hs1] at hskip1
        have hskip2 := length_skipWhiteSpace_le r2
        simp only [hs1] at h
        simp only [List.length_cons] at hskip hskip1
        split_ifs at h with h3A
        cases hv : parseValue fuel (skipWhiteSpace r2) with
        | syntaxError => simp [hv] at h
        | outOfFuel => exact ihV _ (by omega) hv
        | ok v r3 =>
          have h3 := (parse_rest_le fuel).1 _ _ _ hv
          have hskip3 := length_skipWhiteSpace_le r3
          simp only [hv] at h
          cases hs3 : skipWhiteSpace r3 with
          | nil => simp [hs3] at h
          | cons c r4 =>
            rw [hs3] at hskip3
            simp only [hs3] at h
            simp only [List.length_cons] at hskip3
            split_ifs at h with h2C h7D
            cases hm : parseMembers fuel r4 with
            | ok items r5 => simp [hm] at h
            | syntaxError => simp [hm] at h
            | outOfFuel => exact ihM r4 (by omega) hm

theorem parse_fuel_adequate (fuel : Nat) :
    (∀ s, 2 * s.length + 1 ≤ fuel → parseValue fuel s ≠ .outOfFuel) ∧
      (∀ s, 2 * s.length + 2 ≤ fuel → parseElements fuel s ≠ .outOfFuel) ∧
      (∀ s, 2 * s.length + 2 ≤ fuel → parseMembers fuel s ≠ .outOfFuel) := by
  induction fuel with
  | zero =>
    refine ⟨?_, ?_, ?_⟩ <;> intro s hs <;> omega
  | succ fuel ih =>
    exact ⟨parseValue_fuel_step fuel ih.2.1 ih.2.2,
      parseElements_fuel_step fuel ih.1 ih.2.1,
      parseMembers_fuel_step fuel ih.1 ih.2.2⟩

/-- The fuel that `JSON.parse` supplies is never exhausted: an error it reports is a
syntax error of the text. -/
theorem JSON_parse_fuel (text : JsString) :
    parseValue (2 * text.length + 1) (skipWhiteSpace text) ≠ .outOfFuel := by
  apply (parse_fuel_adequate _).1
  have := length_skipWhiteSpace_le text
  omega

/-! ## The contract of the task store -/

/-- C1: when the trimmed draft is non-empty, `addTodo` yields the new task followed by
the old list: the new task is first, carries the trimmed draft as text and
`completed = false`, the tail is the old list, and the length grows by exactly one. -/
theorem addTodo_prepends (L : List Todo) (s uuid now : JsString) (h : trim s ≠ []) :
    (addTodo uuid now { todos := L, input := s }).todos =
        { id := uuid, text := trim s, completed := false, createdAt := now } :: L ∧
      (addTodo uuid now { todos := L, input := s }).todos.length = L.length + 1 ∧
      (addTodo uuid now { todos := L, input := s }).todos.head? =
        some { id := uuid, text := trim s, completed := false, createdAt := now } ∧
      (addTodo uuid now { todos := L, input := s }).todos.tail = L := by
  rw [addTodo_of_trim_ne_nil uuid now { todos := L, input := s } h]
  simp

theorem addTodo_prepends_witness :
    trim (utf16 " Buy milk ") ≠ [] ∧
      (addTodo (utf16 "id-2") (utf16 "2024-01-02T00:00:00.000Z")
          { todos := [{ id := utf16 "id-1", text := utf16 "Walk", completed := true,
                        createdAt := utf16 "2024-01-01T00:00:00.000Z" }],
            input := utf16 " Buy milk " }).todos =
        [{ id := utf16 "id-2", text := utf16 "Buy milk", completed := false,
           createdAt := utf16 "2024-01-02T00:00:00.000Z" },
         { id := utf16 "id-1", text := utf16 "Walk", completed := true,
           createdAt := utf16 "2024-01-01T00:00:00.000Z" }] :=
  ⟨by decide,
   (addTodo_prepends
      [{ id := utf16 "id-1", text := utf16 "Walk", completed := true,
         createdAt := utf16 "2024-01-01T00:00:00.000Z" }]
      (utf16 " Buy milk ") (utf16 "id-2") (utf16 "2024-01-02T00:00:00.000Z")
      (by decide)).1.trans (by decide)⟩

/-- C2: when the draft is empty or consists only of white space, `addTodo` changes
nothing: the task list is exactly the old one and no task is created. -/
theorem addTodo_blank_noop (L : List Todo) (s uuid now : JsString) (h : isBlank s = true) :
    addTodo uuid now { todos := L, input := s } = { todos := L, input := s } ∧
      (addTodo uuid now { todos := L, input := s }).todos = L := by
  have hz : trim s = [] := (trim_eq_nil_iff s).mpr h
  rw [addTodo_of_trim_eq_nil uuid now { todos := L, input := s } hz]
  exact ⟨rfl, rfl⟩

theorem addTodo_blank_noop_witness :
    isBlank (utf16 " \t\n") = true ∧
      (addTodo (utf16 "id-2") (utf16 "2024-01-02T00:00:00.000Z")
          { todos := [{ id := utf16 "id-1", text := utf16 "Walk", completed := true,
                        createdAt := utf16 "2024-01-01T00:00:00.000Z" }],
            input := utf16 " \t\n" }).todos =
        [{ id := utf16 "id-1", text := utf16 "Walk", completed := true,
           createdAt := utf16 "2024-01-01T00:00:00.000Z" }] :=
  ⟨by decide,
   (addTodo_blank_noop
      [{ id := utf16 "id-1", text := utf16 "Walk", completed := true,
         createdAt := utf16 "2024-01-01T00:00:00.000Z" }]
      (utf16 " \t\n") (utf16 "id-2") (utf16 "2024-01-02T00:00:00.000Z") (by decide)).2⟩

/-- C3: `toggleTodo id` keeps the length and the order of the list; at every position
a task whose id differs from `id` is unchanged, and a task whose id is `id` has
`completed` negated with `id`, `text` and `createdAt` unchanged. -/
theorem toggleTodo_flips_only_target (L : List Todo) (draft id : JsString) :
    (toggleTodo id { todos := L, input := draft }).todos.length = L.length ∧
      ids (toggleTodo id { todos := L, input := draft }).todos = ids L ∧
      (∀ (i : Nat) (t : Todo), L[i]? = some t → t.id ≠ id →
        (toggleTodo id { todos := L, input := draft }).todos[i]? = some t) ∧
      (∀ (i : Nat) (t : Todo), L[i]? = some t → t.id = id →
        (toggleTodo id { todos := L, input := draft }).todos[i]? =
          some { id := t.id, text := t.text, completed := !t.completed,
                 createdAt := t.createdAt }) := by
  refine ⟨by simp [toggleTodo], ids_toggleTodo id { todos := L, input := draft }, ?_, ?_⟩
  · intro i t h hne
    simp [toggleTodo, List.getElem?_map, h, hne]
  · intro i t h heq
    simp [toggleTodo, List.getElem?_map, h, heq]

theorem toggleTodo_flips_only_target_witness :
    (toggleTodo (utf16 "a")
        { todos := [{ id := utf16 "b", text := utf16 "Walk", completed := true,
                      createdAt := utf16 "d1" },
                    { id := utf16 "a", text := utf16 "Buy milk", completed := false,
                      createdAt := utf16 "d0" }],
          input := [] }).todos[1]? =
      some { id := utf16 "a", text := utf16 "Buy milk", completed := true,
             createdAt := utf16 "d0" } ∧
    (toggleTodo (utf16 "a")
        { todos := [{ id := utf16 "b", text := utf16 "Walk", completed := true,
                      createdAt := utf16 "d1" },
                    { id := utf16 "a", text := utf16 "Buy milk", completed := false,
                      createdAt := utf16 "d0" }],
          input := [] }).todos[0]? =
      some { id := utf16 "b", text := utf16 "Walk", completed := true,
             createdAt := utf16 "d1" } :=
  have h := toggleTodo_flips_only_target
      [{ id := utf16 "b", text := utf16 "Walk", completed := true, createdAt := utf16 "d1" },
       { id := utf16 "a", text := utf16 "Buy milk", completed := false,
         createdAt := utf16 "d0" }]
      [] (utf16 "a")
  ⟨(h.2.2.2 1
      { id := utf16 "a", text := utf16 "Buy milk", completed := false, createdAt := utf16 "d0" }
      rfl rfl).trans (by decide),
   h.2.2.1 0
      { id := utf16 "b", text := utf16 "Walk", completed := true, createdAt := utf16 "d1" }
      rfl (by decide)⟩

/-- C4: for an id that no task of the list carries, `toggleTodo` and `deleteTodo` both
return the list unchanged (and, being total functions, raise nothing). -/
theorem toggle_delete_absent_noop (L : List Todo) (draft id : JsString) (h : id ∉ ids L) :
    (toggleTodo id { todos := L, input := draft }).todos = L ∧
      (deleteTodo id { todos := L, input := draft }).todos = L := by
  rw [toggleTodo_of_not_mem id { todos := L, input := draft } h,
    deleteTodo_of_not_mem id { todos := L, input := draft } h]
  exact ⟨rfl, rfl⟩

theorem toggle_delete_absent_noop_witness :
    utf16 "zz" ∉ ids [{ id := utf16 "a", text := utf16 "Buy milk", completed := false,
                        createdAt := utf16 "d0" }] ∧
      (toggleTodo (utf16 "zz")
          { todos := [{ id := utf16 "a", text := utf16 "Buy milk", completed := false,
                        createdAt := utf16 "d0" }],
            input := [] }).todos =
        [{ id := utf16 "a", text := utf16 "Buy milk", completed := false,
           createdAt := utf16 "d0" }] :=
  ⟨by decide,
   (toggle_delete_absent_noop
      [{ id := utf16 "a", text := utf16 "Buy milk", completed := false,
         createdAt := utf16 "d0" }]
      [] (utf16 "zz") (by decide)).1⟩

/-- C5: `deleteTodo id` returns the list with the tasks carrying `id` left out: no task
of the result has that id, every other task stays, unchanged and in the original
relative order, and when the ids of the list are pairwise distinct and `id` occurs,
the length drops by exactly one. -/
theorem deleteTodo_removes (L : List Todo) (draft id : JsString) :
    (∀ t ∈ (deleteTodo id { todos := L, input := draft }).todos, t.id ≠ id) ∧
      (deleteTodo id { todos := L, input := draft }).todos.Sublist L ∧
      (∀ t ∈ L, t.id ≠ id → t ∈ (deleteTodo id { todos := L, input := draft }).todos) ∧
      (deleteTodo id { todos := L, input := draft }).todos = L.filter (fun t => t.id ≠ id) ∧
      ((ids L).Nodup → id ∈ ids L →
        (deleteTodo id { todos := L, input := draft }).todos.length + 1 = L.length) := by
  refine ⟨?_, ?_, ?_, rfl, ?_⟩
  · intro t ht
    simp only [deleteTodo, List.mem_filter] at ht
    simpa using ht.2
  · exact List.filter_sublist L
  · intro t ht hne
    simp only [deleteTodo, List.mem_filter]
    exact ⟨ht, by simpa using hne⟩
  · intro hn hm
    exact length_filter_ne_of_nodup id L hn hm

theorem deleteTodo_removes_witness :
    (deleteTodo (utf16 "a")
        { todos := [{ id := utf16 "b", text := utf16 "Walk", completed := true,
                      createdAt := utf16 "d1" },
                    { id := utf16 "a", text := utf16 "Buy milk", completed := false,
                      createdAt := utf16 "d0" }],
          input := [] }).todos.length + 1 = 2 :=
  (deleteTodo_removes
      [{ id := utf16 "b", text := utf16 "Walk", completed := true, createdAt := utf16 "d1" },
       { id := utf16 "a", text := utf16 "Buy milk", completed := false,
         createdAt := utf16 "d0" }]
      [] (utf16 "a")).2.2.2.2 (by decide) (by decide)

/-- C9: the predicate "every text is non-empty, not blank and equal to its own trimmed
form" is preserved by `addTodo`, `toggleTodo` and `deleteTodo`, and it holds of every
list reached from the empty list by any sequence of events. -/
theorem texts_invariant (L : List Todo) (draft uuid now id : JsString) (acts : List Action) :
    (TextsOk L → TextsOk (addTodo uuid now { todos := L, input := draft }).todos) ∧
      (TextsOk L → TextsOk (toggleTodo id { todos := L, input := draft }).todos) ∧
      (TextsOk L → TextsOk (deleteTodo id { todos := L, input := draft }).todos) ∧
      TextsOk (run AppState.initial acts).todos :=
  ⟨textsOk_addTodo uuid now { todos := L, input := draft },
   textsOk_toggleTodo id { todos := L, input := draft },
   textsOk_deleteTodo id { todos := L, input := draft },
   textsOk_run acts AppState.initial (by intro t ht; cases ht)⟩

theorem texts_invariant_witness :
    TextsOk (addTodo (utf16 "id-2") (utf16 "d2")
        { todos := [{ id := utf16 "id-1", text := utf16 "Walk", completed := true,
                      createdAt := utf16 "d1" }],
          input := utf16 "  Buy milk" }).todos ∧
      TextsOk (run AppState.initial
        [.type (utf16 " x "), .add (utf16 "id-1") (utf16 "d1"), .toggle (utf16 "id-1"),
         .type (utf16 "   "), .add (utf16 "id-2") (utf16 "d2")]).todos :=
  have h := texts_invariant
    [{ id := utf16 "id-1", text := utf16 "Walk", completed := true, createdAt := utf16 "d1" }]
    (utf16 "  Buy milk") (utf16 "id-2") (utf16 "d2") (utf16 "id-1")
    [.type (utf16 " x "), .add (utf16 "id-1") (utf16 "d1"), .toggle (utf16 "id-1"),
     .type (utf16 "   "), .add (utf16 "id-2") (utf16 "d2")]
  ⟨h.1 (by
      intro t ht
      simp only [List.mem_singleton] at ht
      subst ht
      decide),
   h.2.2.2⟩

/-- C10: pairwise distinct ids stay pairwise distinct after `toggleTodo` and after
`deleteTodo` for every id, and after `addTodo` whenever the generated id does not
already occur in the list; hence every list reached from the empty list by a
sequence of events whose generated ids are fresh has pairwise distinct ids. -/
theorem ids_unique_invariant (L : List Todo) (draft uuid now id : JsString)
    (acts : List Action) :
    ((ids L).Nodup → (ids (toggleTodo id { todos := L, input := draft }).todos).Nodup) ∧
      ((ids L).Nodup → (ids (deleteTodo id { todos := L, input := draft }).todos).Nodup) ∧
      ((ids L).Nodup → uuid ∉ ids L →
        (ids (addTodo uuid now { todos := L, input := draft }).todos).Nodup) ∧
      (freshIds AppState.initial acts = true → (ids (run AppState.initial acts).todos).Nodup) :=
  ⟨nodup_toggleTodo id { todos := L, input := draft },
   nodup_deleteTodo id { todos := L, input := draft },
   nodup_addTodo uuid now { todos := L, input := draft },
   nodup_run acts AppState.initial List.nodup_nil⟩

theorem ids_unique_invariant_witness :
    (ids (addTodo (utf16 "id-2") (utf16 "d2")
        { todos := [{ id := utf16 "id-1", text := utf16 "Walk", completed := true,
                      createdAt := utf16 "d1" }],
          input := utf16 "Buy milk" }).todos).Nodup ∧
      (ids (run AppState.initial
        [.type (utf16 "x"), .add (utf16 "id-1") (utf16 "d1"), .toggle (utf16 "id-1"),
         .type (utf16 "y"), .add (utf16 "id-2") (utf16 "d2")]).todos).Nodup :=
  have h := ids_unique_invariant
    [{ id := utf16 "id-1", text := utf16 "Walk", completed := true, createdAt := utf16 "d1" }]
    (utf16 "Buy milk") (utf16 "id-2") (utf16 "d2") (utf16 "id-1")
    [.type (utf16 "x"), .add (utf16 "id-1") (utf16 "d1"), .toggle (utf16 "id-1"),
     .type (utf16 "y"), .add (utf16 "id-2") (utf16 "d2")]
  ⟨h.2.2.1 (by decide) (by decide), h.2.2.2 (by decide)⟩

/-- C6: for every task list (array lengths are below `2^32`), `stats` returns
`total` = the length, `completed` = the number of tasks with `completed = true`, and
`percentage` = 0 when the list is empty, otherwise an integer nearest to
`completed / total * 100` (within one half of it, no integer is nearer); in particular 0 for the empty list and 25 for one
completed task out of four. -/
theorem stats_spec (L : List Todo) (hlen : L.length < 2 ^ 32) :
    (stats L).total = L.length ∧
      (stats L).completed = L.countP (fun t => t.completed) ∧
      (L.length = 0 → (stats L).percentage = 0) ∧
      (L.length ≠ 0 →
        |((stats L).percentage : ℚ) - (L.countP (fun t => t.completed) : ℚ) / L.length * 100|
          ≤ 1 / 2) ∧
      (L.length ≠ 0 → ∀ k : ℤ,
        |((stats L).percentage : ℚ) - (L.countP (fun t => t.completed) : ℚ) / L.length * 100|
          ≤ |(k : ℚ) - (L.countP (fun t => t.completed) : ℚ) / L.length * 100|) ∧
      (stats []).percentage = 0 ∧
      (L.length = 4 → L.countP (fun t => t.completed) = 1 → (stats L).percentage = 25) := by
  have hcount : (L.filter fun t => t.completed).length = L.countP (fun t => t.completed) :=
    (List.countP_eq_length_filter _ L).symm
  have hnear : L.length ≠ 0 →
      |((stats L).percentage : ℚ) - (L.countP (fun t => t.completed) : ℚ) / L.length * 100|
        ≤ 1 / 2 := by
    intro hne
    have hp : (stats L).percentage =
        Math.round (numberMultiply (numberDivide (L.countP (fun t => t.completed)) L.length)
          100) := by
      simp only [stats, hcount, if_neg hne]
    rw [hp]
    exact percentage_nearest _ _ (Nat.pos_of_ne_zero hne) (List.countP_le_length _) hlen
  refine ⟨rfl, hcount, ?_, hnear, ?_, rfl, ?_⟩
  · intro h0
    simp only [stats, if_pos h0]
  · intro hne k
    exact nearest_of_within_half _ _ (hnear hne) k
  · intro h4 h1
    have hb := abs_le.mp (hnear (by omega))
    rw [h4, h1] at hb
    have h24 : ((24 : ℤ) : ℚ) < (stats L).percentage := by
      push_cast; norm_num at hb; linarith [hb.1]
    have h26 : (((stats L).percentage : ℤ) : ℚ) < ((26 : ℤ) : ℚ) := by
      push_cast; norm_num at hb; linarith [hb.2]
    have h24' : 24 < (stats L).percentage := by exact_mod_cast h24
    have h26' : (stats L).percentage < 26 := by exact_mod_cast h26
    omega

theorem stats_spec_witness :
    [({ id := utf16 "d", text := utf16 "Walk", completed := false, createdAt := [] } : Todo),
      { id := utf16 "c", text := utf16 "Read", completed := true, createdAt := [] },
      { id := utf16 "b", text := utf16 "Cook", completed := false, createdAt := [] },
      { id := utf16 "a", text := utf16 "Buy milk", completed := false, createdAt := [] }].length
        < 2 ^ 32 ∧
      (stats [{ id := utf16 "d", text := utf16 "Walk", completed := false, createdAt := [] },
              { id := utf16 "c", text := utf16 "Read", completed := true, createdAt := [] },
              { id := utf16 "b", text := utf16 "Cook", completed := false, createdAt := [] },
              { id := utf16 "a", text := utf16 "Buy milk", completed := false,
                createdAt := [] }]).percentage = 25 :=
  ⟨by decide,
   (stats_spec
      [{ id := utf16 "d", text := utf16 "Walk", completed := false, createdAt := [] },
       { id := utf16 "c", text := utf16 "Read", completed := true, createdAt := [] },
       { id := utf16 "b", text := utf16 "Cook", completed := false, createdAt := [] },
       { id := utf16 "a", text := utf16 "Buy milk", completed := false, createdAt := [] }]
      (by decide)).2.2.2.2.2.2 rfl (by decide)⟩

/-- C7, as stated, fails: the stored string `undefined` is not valid JSON, and the initial load
ends in the `SyntaxError` of `JSON.parse`, not in the empty list. -/
theorem loadTodos_malformed_throws :
    JSON.parse (utf16 "undefined") = .error .syntaxError ∧
      loadTodos (Storage.setItem (fun _ => none) storageKey (utf16 "undefined")) =
        .error .syntaxError ∧
      loadTodos (Storage.setItem (fun _ => none) storageKey (utf16 "undefined")) ≠ .ok (.array []) := by
  have h : loadTodos (Storage.setItem (fun _ => none) storageKey (utf16 "undefined")) =
      .error .syntaxError := by
    unfold loadTodos
    rw [getItem_setItem]
    rfl
  refine ⟨rfl, h, ?_⟩
  rw [h]
  intro hc
  cases hc

/-- C7, amended: the initial load returns the empty list when nothing is stored under
the key or the stored string is empty; for a non-empty stored string it is
`JSON.parse` of that string, so a string that is not valid JSON makes the load fail
with the `SyntaxError` of `JSON.parse`. -/
theorem loadTodos_spec (storage : Storage) :
    (storage.getItem storageKey = none → loadTodos storage = .ok (.array [])) ∧
      (storage.getItem storageKey = some [] → loadTodos storage = .ok (.array [])) ∧
      (∀ s, storage.getItem storageKey = some s → s ≠ [] →
        loadTodos storage = JSON.parse s) ∧
      (∀ s e, storage.getItem storageKey = some s → s ≠ [] → JSON.parse s = .error e →
        loadTodos storage = .error e) := by
  have hparse : ∀ s, storage.getItem storageKey = some s → s ≠ [] →
      loadTodos storage = JSON.parse s := by
    intro s hs hne
    unfold loadTodos
    rw [hs]
    cases s with
    | nil => exact absurd rfl hne
    | cons c rest => rfl
  refine ⟨?_, ?_, hparse, ?_⟩
  · intro hst
    unfold loadTodos
    rw [hst]
  · intro hst
    unfold loadTodos
    rw [hst]
    rfl
  · intro s e hs hne hbad
    rw [hparse s hs hne, hbad]

theorem loadTodos_spec_witness :
    loadTodos (Storage.setItem (fun _ => none) storageKey (utf16 "[1,")) = .error .syntaxError ∧
      loadTodos (Storage.setItem (fun _ => none) storageKey []) = .ok (.array []) :=
  ⟨(loadTodos_spec (Storage.setItem (fun _ => none) storageKey (utf16 "[1,"))).2.2.2
      (utf16 "[1,") .syntaxError (getItem_setItem _ _ _) (by decide) rfl,
   (loadTodos_spec (Storage.setItem (fun _ => none) storageKey [])).2.1
      (getItem_setItem _ _ _)⟩

/-- C8: for every list of task records, storing it as the persistence effect does and
loading it as the initial load does yields the array of the same records, in the same
order, each with the same `id`, `text`, `completed` and `createdAt`; this includes
the empty list. -/
theorem persist_load_roundtrip (storage : Storage) (todos : List Todo) :
    loadTodos (persistTodos storage todos) = .ok (todosToJsValue todos) ∧
      (todosToJsValue todos).asTodos = some todos ∧
      loadTodos (persistTodos storage []) = .ok (.array []) := by
  have key : ∀ l : List Todo, loadTodos (persistTodos storage l) = .ok (todosToJsValue l) := by
    intro l
    unfold loadTodos persistTodos
    rw [getItem_setItem]
    have hne := stringify_ne_nil l
    cases hstr : JSON.stringify l with
    | nil => exact absurd hstr hne
    | cons c rest =>
      rw [← hstr]
      simpa [hstr] using parse_stringify l
  exact ⟨key todos, asTodos_todosToJsValue todos, key []⟩

end AtmosphereTodo
